import Mathlib

/-!
# Verification of the spinspg core algorithms

A shallow embedding, in Lean 4, of the core algorithms of the `spinspg`
repository (files `src/spinspg/permutation.py`, `src/spinspg/group.py`,
`src/spinspg/pointgroup.py`), together with theorems settling the
specification claims about them.

Conventions of the embedding:
* NumPy float arrays are embedded as exact rationals (`ℚ`); integer arrays as
  `ℤ`.  3-vectors and 3×3 matrices are the concrete structures `V3`/`M3`
  below, so that every definition is executable and decidable.
* A strict comparison `‖v‖ < eps` on a Euclidean norm is embedded as the
  exactly equivalent `0 < eps ∧ normSq v < eps^2` (for a real vector,
  `‖v‖ ≥ 0`, so `‖v‖ < eps` holds iff `eps` is positive and the squared
  norm is below `eps^2`).
* `np.rint` / `np.around` round half to even; `rintQ` below implements that
  tie-breaking exactly.
* External collaborators of the repository (spglib symmetry discovery, the
  `hsnf` Hermite-Normal-Form utility, the point-group identification oracle
  and its catalogue, and the rotation-fit / spin-only-group oracles of
  `spinspg/spin.py`) are passed to the embedded functions as explicit
  function arguments, exactly at the call sites where the Python code calls
  out to them.
-/

attribute [local semireducible] Rat.add Rat.sub Rat.mul Rat.inv

/-! ## 3-vectors and 3×3 matrices -/

/-- A 3-vector with entries in `α` (embedding of a length-3 NumPy array). -/
@[ext]
structure V3 (α : Type) where
  x : α
  y : α
  z : α
deriving DecidableEq, Repr

/-- A 3×3 matrix with entries in `α`, stored by rows (embedding of a `(3, 3)`
NumPy array). -/
@[ext]
structure M3 (α : Type) where
  r0 : V3 α
  r1 : V3 α
  r2 : V3 α
deriving DecidableEq, Repr

namespace V3

variable {α : Type} [CommRing α]

def add (u v : V3 α) : V3 α := ⟨u.x + v.x, u.y + v.y, u.z + v.z⟩

def sub (u v : V3 α) : V3 α := ⟨u.x - v.x, u.y - v.y, u.z - v.z⟩

def neg (u : V3 α) : V3 α := ⟨-u.x, -u.y, -u.z⟩

def smul (a : α) (u : V3 α) : V3 α := ⟨a * u.x, a * u.y, a * u.z⟩

def dot (u v : V3 α) : α := u.x * v.x + u.y * v.y + u.z * v.z

/-- Squared Euclidean norm. -/
def normSq (u : V3 α) : α := u.x * u.x + u.y * u.y + u.z * u.z

def zero : V3 α := ⟨0, 0, 0⟩

instance : Add (V3 α) := ⟨V3.add⟩
instance : Sub (V3 α) := ⟨V3.sub⟩
instance : Neg (V3 α) := ⟨V3.neg⟩
instance : Zero (V3 α) := ⟨V3.zero⟩

/-- Embed an integer vector into a rational one (`.astype(float)`). -/
def toQ (u : V3 ℤ) : V3 ℚ := ⟨(u.x : ℚ), (u.y : ℚ), (u.z : ℚ)⟩

/-- The vector has integral entries. -/
def IsInt (u : V3 ℚ) : Prop := ∃ n : V3 ℤ, u = toQ n

instance (u : V3 ℚ) : Decidable u.IsInt :=
  decidable_of_iff (u.x.den = 1 ∧ u.y.den = 1 ∧ u.z.den = 1) (by
    constructor
    · rintro ⟨hx, hy, hz⟩
      exact ⟨⟨u.x.num, u.y.num, u.z.num⟩, by
        cases u
        simp only [toQ, V3.mk.injEq]
        exact ⟨(Rat.den_eq_one_iff _).mp hx |>.symm,
               (Rat.den_eq_one_iff _).mp hy |>.symm,
               (Rat.den_eq_one_iff _).mp hz |>.symm⟩⟩
    · rintro ⟨n, rfl⟩
      exact ⟨Rat.den_intCast n.x, Rat.den_intCast n.y, Rat.den_intCast n.z⟩)

end V3

namespace M3

variable {α : Type} [CommRing α]

/-- Columns of the matrix. -/
def c0 (A : M3 α) : V3 α := ⟨A.r0.x, A.r1.x, A.r2.x⟩
def c1 (A : M3 α) : V3 α := ⟨A.r0.y, A.r1.y, A.r2.y⟩
def c2 (A : M3 α) : V3 α := ⟨A.r0.z, A.r1.z, A.r2.z⟩

def transpose (A : M3 α) : M3 α := ⟨A.c0, A.c1, A.c2⟩

/-- Matrix–vector product `A @ v`. -/
def mulVec (A : M3 α) (v : V3 α) : V3 α := ⟨A.r0.dot v, A.r1.dot v, A.r2.dot v⟩

/-- Matrix product `A @ B`. -/
def mul (A B : M3 α) : M3 α :=
  ⟨⟨A.r0.dot B.c0, A.r0.dot B.c1, A.r0.dot B.c2⟩,
   ⟨A.r1.dot B.c0, A.r1.dot B.c1, A.r1.dot B.c2⟩,
   ⟨A.r2.dot B.c0, A.r2.dot B.c1, A.r2.dot B.c2⟩⟩

def one : M3 α := ⟨⟨1, 0, 0⟩, ⟨0, 1, 0⟩, ⟨0, 0, 1⟩⟩

def zero : M3 α := ⟨⟨0, 0, 0⟩, ⟨0, 0, 0⟩, ⟨0, 0, 0⟩⟩

def add (A B : M3 α) : M3 α := ⟨A.r0 + B.r0, A.r1 + B.r1, A.r2 + B.r2⟩

def smul (a : α) (A : M3 α) : M3 α := ⟨A.r0.smul a, A.r1.smul a, A.r2.smul a⟩

/-- Determinant (the standard 3×3 cofactor expansion). -/
def det (A : M3 α) : α :=
  A.r0.x * (A.r1.y * A.r2.z - A.r1.z * A.r2.y)
  - A.r0.y * (A.r1.x * A.r2.z - A.r1.z * A.r2.x)
  + A.r0.z * (A.r1.x * A.r2.y - A.r1.y * A.r2.x)

/-- Adjugate (transpose of the cofactor matrix). -/
def adj (A : M3 α) : M3 α :=
  ⟨⟨A.r1.y * A.r2.z - A.r1.z * A.r2.y,
    -(A.r0.y * A.r2.z - A.r0.z * A.r2.y),
    A.r0.y * A.r1.z - A.r0.z * A.r1.y⟩,
   ⟨-(A.r1.x * A.r2.z - A.r1.z * A.r2.x),
    A.r0.x * A.r2.z - A.r0.z * A.r2.x,
    -(A.r0.x * A.r1.z - A.r0.z * A.r1.x)⟩,
   ⟨A.r1.x * A.r2.y - A.r1.y * A.r2.x,
    -(A.r0.x * A.r2.y - A.r0.y * A.r2.x),
    A.r0.x * A.r1.y - A.r0.y * A.r1.x⟩⟩

instance : Mul (M3 α) := ⟨M3.mul⟩
instance : One (M3 α) := ⟨M3.one⟩

/-- Embed an integer matrix into a rational one. -/
def toQ (A : M3 ℤ) : M3 ℚ := ⟨A.r0.toQ, A.r1.toQ, A.r2.toQ⟩

/-- The matrix has integral entries (embedding of
`spinspg.utils.is_integer_array`, which is not shipped under `src/`;
modelled from the spec: it tests that every entry of a float array is an
integer, which over exact rationals is exact integrality). -/
def IsInt (A : M3 ℚ) : Prop := ∃ N : M3 ℤ, A = toQ N

instance (A : M3 ℚ) : Decidable A.IsInt :=
  decidable_of_iff (A.r0.IsInt ∧ A.r1.IsInt ∧ A.r2.IsInt) (by
    constructor
    · rintro ⟨⟨n0, h0⟩, ⟨n1, h1⟩, ⟨n2, h2⟩⟩
      exact ⟨⟨n0, n1, n2⟩, by cases A; simp_all [toQ]⟩
    · rintro ⟨N, rfl⟩
      exact ⟨⟨N.r0, rfl⟩, ⟨N.r1, rfl⟩, ⟨N.r2, rfl⟩⟩)

/-- Matrix inverse over `ℚ` via the adjugate (embedding of
`np.linalg.inv`; exact for the rational embedding, and a junk total value
when the matrix is singular). -/
def inv (A : M3 ℚ) : M3 ℚ := (A.adj).smul (A.det)⁻¹

end M3

/-! ## Round-half-to-even (`np.rint` / `np.around`) -/

/-- Embedding of `np.rint` on a scalar: round to the nearest integer, ties to even. -/
def rintQ (q : ℚ) : ℤ :=
  let f := ⌊q⌋
  let r := q - f
  if r < 1/2 then f
  else if 1/2 < r then f + 1
  else if f % 2 = 0 then f else f + 1

/-- Embedding of `np.rint` on a 3-vector, producing an integer vector. -/
def rintV3 (v : V3 ℚ) : V3 ℤ := ⟨rintQ v.x, rintQ v.y, rintQ v.z⟩

/-- Embedding of `np.rint` on a 3-vector, kept as rationals (as in
`reduced_centering -= np.rint(reduced_centering)`). -/
def rintV3Q (v : V3 ℚ) : V3 ℚ := (rintV3 v).toQ

/-- Embedding of `np.rint` / rounding of a 3×3 float matrix to an integer matrix
(embedding of `ndarray2d_to_integer_tuple`, which converts a float matrix
into a hashable tuple of rounded integers). -/
def rintM3 (A : M3 ℚ) : M3 ℤ := ⟨rintV3 A.r0, rintV3 A.r1, rintV3 A.r2⟩

/-! ## `spinspg/permutation.py` -/

/-- Embedding of `is_overlap(lattice, frac_coords, symprec)` from `permutation.py`:
the Cartesian displacement to the nearest periodic image is
`lattice.T @ (frac_coords - np.rint(frac_coords))`, and the test is
`np.linalg.norm(diff) < symprec`, embedded as the exactly equivalent
`0 < symprec ∧ normSq diff < symprec^2`. -/
def is_overlap (lattice : M3 ℚ) (frac_coords : V3 ℚ) (symprec : ℚ) : Bool :=
  let diff := (lattice.transpose).mulVec (frac_coords - rintV3Q frac_coords)
  decide (0 < symprec) && decide (diff.normSq < symprec ^ 2)

/-- The inner `for j in range(num_sites)` loop of
`get_symmetry_permutations`: scan target sites `j` in order, skipping
already-claimed targets (`found[j]`) and species mismatches, and accept the
first `j` whose displacement passes `is_overlap`.  Returns the accepted `j`,
if any.  `targets` carries `(j, position_j, number_j)`. -/
def findTarget (lattice : M3 ℚ) (newpos_i : V3 ℚ) (num_i : ℤ)
    (found : List Bool) (symprec : ℚ) :
    List (ℕ × V3 ℚ × ℤ) → Option ℕ
  | [] => none
  | (j, pos_j, num_j) :: rest =>
    if found.getD j false || decide (num_i ≠ num_j) then
      findTarget lattice newpos_i num_i found symprec rest
    else if is_overlap lattice (newpos_i - pos_j) symprec then
      some j
    else
      findTarget lattice newpos_i num_i found symprec rest

/-- The outer `for i in range(num_sites)` loop: build `perm` (with `-1`
sentinel for unmatched sites) and the `found` claim flags. -/
def buildPerm (lattice : M3 ℚ) (targets : List (ℕ × V3 ℚ × ℤ))
    (symprec : ℚ) (found : List Bool) :
    List (V3 ℚ × ℤ) → List ℤ
  | [] => []
  | (npos_i, num_i) :: rest =>
    match findTarget lattice npos_i num_i found symprec targets with
    | some j => (j : ℤ) :: buildPerm lattice targets symprec (found.set j true) rest
    | none => (-1) :: buildPerm lattice targets symprec found rest

/-- The guard `np.all(perm != -1)` at line 51 of `permutation.py`.  `perm`
is a Python `list` and `-1` an `int`, so `perm != -1` is the plain Python
comparison of a list with an int, which evaluates to `True` (they are never
equal), and `np.all(True)` is `True`: the guard always passes, regardless of
the entries of `perm`. -/
def npAll_perm_ne (perm : List ℤ) (sentinel : ℤ) : Bool :=
  let _ := perm
  let _ := sentinel
  true

/-- Embedding of `get_symmetry_permutations` from `permutation.py`: for each
`(rotation, translation)` operation, build the site permutation by
first-fit matching; the operation's permutation is appended whenever the
`np.all(perm != -1)` guard passes.  Permutations are returned as raw index
lists (the `Permutation` dataclass wraps exactly this list). -/
def get_symmetry_permutations (lattice : M3 ℚ) (positions : List (V3 ℚ))
    (numbers : List ℤ) (ops : List (M3 ℚ × V3 ℚ)) (symprec : ℚ) :
    List (List ℤ) :=
  let targets := (List.range positions.length).map
    (fun j => (j, positions.getD j 0, numbers.getD j 0))
  ops.foldr
    (fun (op : M3 ℚ × V3 ℚ) acc =>
      let rot := op.1
      let tr := op.2
      -- new_positions = positions @ rot.T + trans  (row i is rot @ positions[i] + trans)
      let sources := (List.range positions.length).map
        (fun i => (rot.mulVec (positions.getD i 0) + tr, numbers.getD i 0))
      let perm := buildPerm lattice targets symprec
        (List.replicate positions.length false) sources
      if npAll_perm_ne perm (-1) then perm :: acc else acc)
    []

/-! ## `spinspg/pointgroup.py`: closure by generators -/

/-- Elements handled by `traverse_spin_operations`: pairs of (hashable
encodings of) 3×3 integer matrices; the pairwise product multiplies the two
components separately, exactly as in
`(ndarray2d_to_integer_tuple(g[0] @ h[0]), ndarray2d_to_integer_tuple(g[1] @ h[1]))`. -/
def SpinOp : Type := M3 ℤ × M3 ℤ

instance : DecidableEq SpinOp := instDecidableEqProd

instance : Mul SpinOp := ⟨fun g h => (g.1 * h.1, g.2 * h.2)⟩

/-- The `while len(que) > 0` loop of `traverse_spin_operations`, with an
explicit fuel parameter standing in for the unbounded iteration of the
Python loop (`none` means the fuel ran out before the queue emptied; the
Python code has no such cap).

State conventions: `founds` is the found-set in insertion order (Python
iterates a `set`, whose order is implementation defined; the embedding
determinizes it to insertion order).  `queue` holds the deque with its
*right* end (the end popped by `que.pop()` and pushed by `que.append`)
first, so a pop is a head pattern match and a sequence of appends prepends
the new items in reverse. -/
def traverseLoop {α : Type} [Mul α] [DecidableEq α] :
    ℕ → List α → List α → Option (List α)
  | _, founds, [] => some founds
  | 0, _, _ :: _ => none
  | (fuel + 1), founds, g :: rest =>
    if g ∈ founds then
      traverseLoop fuel founds rest
    else
      let founds' := founds ++ [g]
      let newItems := (founds'.map (fun h => g * h)).filter
        (fun gh => decide (gh ∉ founds'))
      traverseLoop fuel founds' (newItems.reverse ++ rest)

/-- Embedding of `traverse_spin_operations(generators)` from `pointgroup.py`: BFS-style
closure of the generator list under the pairwise product, returning the
found-set (the Python function returns `tuple(founds)`).  The deque is
seeded by appending the generators in order, so the first pop takes the
last generator. -/
def traverse_spin_operations {α : Type} [Mul α] [DecidableEq α]
    (fuel : ℕ) (generators : List α) : Option (List α) :=
  traverseLoop fuel [] generators.reverse

/-! ## `spinspg/group.py`: the spin group assembler

`get_primitive_spin_symmetry` is embedded with its external collaborators
as explicit function arguments: `hnf` stands for
`hsnf.column_style_hermite_normal_form` (only the leading 3 columns of the
HNF are used, so `hnf` directly returns those, as a 3×3 matrix);
`get_spin_only_group` and `solve_procrustes` stand for the two oracles of
`spinspg/spin.py` (which is not shipped under `src/`; per the spec they are
black boxes: a membership test for the spin-only group, and the orthogonal
Procrustes solver).  Sites are indexed by `Fin n` and permutations are
functions `Fin n → Fin n`, the functional reading of the `Permutation`
index arrays consumed by `magmoms[perm.permutation]`. -/

/-- The `SpinSymmetryOperation` dataclass of `group.py`. -/
structure SpinSymmetryOperation where
  rotation : M3 ℚ
  translation : V3 ℚ
  spin_rotation : M3 ℚ
deriving DecidableEq, Repr

/-- The `NonmagneticSymmetry` dataclass of `group.py` (the fields consumed by
`get_primitive_spin_symmetry`).  `n` is the number of sites of the input
cell. -/
structure NonmagneticSymmetry (n : ℕ) where
  prim_lattice : M3 ℚ
  prim_rotations : List (M3 ℤ)
  prim_translations : List (V3 ℚ)
  prim_permutations : List (Fin n → Fin n)
  prim_centerings : List (V3 ℚ)
  prim_centering_permutations : List (Fin n → Fin n)
  transformation : M3 ℤ

/-- Embedding of `np.max(np.linalg.norm(a - b, axis=1)) < tol`: the maximum per-site
Euclidean norm of `a - b` is strictly below `tol`.  Embedded (for `n > 0`,
where `np.max` is defined) as the exactly equivalent
`0 < tol ∧ ∀ i, normSq (a i - b i) < tol^2`. -/
def maxNormDiffLt (n : ℕ) (a b : Fin n → V3 ℚ) (tol : ℚ) : Bool :=
  decide (0 < tol) &&
    (List.finRange n).all (fun i => decide ((a i - b i).normSq < tol ^ 2))

/-- Phase A (lines 180–188 of `group.py`): keep the centerings whose
induced permutation leaves the moments unchanged within `mag_symprec`. -/
def stgCenteringFilter (n : ℕ) (magmoms : Fin n → V3 ℚ) (mag_symprec : ℚ) :
    List (V3 ℚ × (Fin n → Fin n)) → List (V3 ℚ × (Fin n → Fin n))
  | [] => []
  | (c, p) :: rest =>
    if maxNormDiffLt n (fun i => magmoms (p i)) magmoms mag_symprec then
      (c, p) :: stgCenteringFilter n magmoms mag_symprec rest
    else
      stgCenteringFilter n magmoms mag_symprec rest

/-- Phase B input (lines 191–197): the nonmagnetic transformation matrix
(3 columns) concatenated with the retained centering vectors. -/
def stgVectors (transformation : M3 ℤ) (stg_centerings : List (V3 ℚ)) :
    List (V3 ℚ) :=
  [(M3.toQ transformation).c0, (M3.toQ transformation).c1,
    (M3.toQ transformation).c2] ++ stg_centerings

/-- The canonicalized spin rotation of a candidate operation (lines
219–226 / 261–267): solve the Procrustes problem and replace the result by
the identity whenever it belongs to the spin-only group. -/
def fittedSpinRotation (n : ℕ)
    (solve_procrustes : (Fin n → V3 ℚ) → (Fin n → V3 ℚ) → M3 ℚ)
    (sog : M3 ℚ → Bool) (magmoms perm_magmoms : Fin n → V3 ℚ) : M3 ℚ :=
  let W := solve_procrustes magmoms perm_magmoms
  if sog W then M3.one else W

/-- The fundamental-domain reduction of a centering (lines 212–213):
apply `T⁻¹`, subtract the nearest-integer vector. -/
def reduceToFD (tmat_stg : M3 ℚ) (centering : V3 ℚ) : V3 ℚ :=
  let reduced := (tmat_stg.inv).mulVec centering
  reduced - rintV3Q reduced

/-- The deduplication key of a reduced centering (line 214):
`tuple(np.around(tmat_stg @ reduced_centering).astype(np.int_))`. -/
def reducedKey (tmat_stg : M3 ℚ) (centering : V3 ℚ) : V3 ℤ :=
  rintV3 (tmat_stg.mulVec (reduceToFD tmat_stg centering))

/-- The spin-translation-coset search (lines 207–236 of `group.py`):
iterate over all nonmagnetic centerings, skip duplicates modulo the new
primitive lattice, fit and canonicalize the spin rotation, and accept the
operation only if the rotated moments match the permuted moments within
tolerance.  `found` is the `found_stg_centerings` set. -/
def spinTranslationSearch (n : ℕ) (tmat_stg : M3 ℚ)
    (solve_procrustes : (Fin n → V3 ℚ) → (Fin n → V3 ℚ) → M3 ℚ)
    (sog : M3 ℚ → Bool) (magmoms : Fin n → V3 ℚ) (mag_symprec : ℚ) :
    List (V3 ℚ × (Fin n → Fin n)) → List (V3 ℤ) → List SpinSymmetryOperation
  | [], _ => []
  | (c, p) :: rest, found =>
    let key := reducedKey tmat_stg c
    if key ∈ found then
      spinTranslationSearch n tmat_stg solve_procrustes sog magmoms mag_symprec rest found
    else
      let found' := key :: found
      let perm_magmoms := fun i => magmoms (p i)
      let W := fittedSpinRotation n solve_procrustes sog magmoms perm_magmoms
      if maxNormDiffLt n (fun i => W.mulVec (magmoms i)) perm_magmoms mag_symprec then
        ⟨M3.one, (tmat_stg.inv).mulVec c, W⟩ ::
          spinTranslationSearch n tmat_stg solve_procrustes sog magmoms mag_symprec rest found'
      else
        spinTranslationSearch n tmat_stg solve_procrustes sog magmoms mag_symprec rest found'

/-- The inner centering scan of the nontrivial-coset search (lines
260–280): return the first retained centering (with its fitted spin
rotation) whose composed permutation `centering_perm * perm` yields a
moment match within tolerance; `none` when no centering matches.  The
`break` of the Python loop is the `some` return here. -/
def firstCenteringHit (n : ℕ)
    (solve_procrustes : (Fin n → V3 ℚ) → (Fin n → V3 ℚ) → M3 ℚ)
    (sog : M3 ℚ → Bool) (magmoms : Fin n → V3 ℚ) (mag_symprec : ℚ)
    (p : Fin n → Fin n) :
    List (V3 ℚ × (Fin n → Fin n)) → Option (V3 ℚ × M3 ℚ)
  | [] => none
  | (c, cp) :: rest =>
    -- new_perm = centering_perm * perm, so new_perm(i) = centering_perm(perm(i))
    let perm_magmoms := fun i => magmoms (cp (p i))
    let W := fittedSpinRotation n solve_procrustes sog magmoms perm_magmoms
    if maxNormDiffLt n (fun i => W.mulVec (magmoms i)) perm_magmoms mag_symprec then
      some (c, W)
    else
      firstCenteringHit n solve_procrustes sog magmoms mag_symprec p rest

/-- The outer loop of the nontrivial-coset search (lines 248–280): for
each nonmagnetic `(rotation, translation, permutation)` triple, reject the
triple when the rotation conjugated into the new primitive basis is not an
integer matrix, otherwise append at most one operation built from the
first matching centering. -/
def nontrivialCosetSearch (n : ℕ) (tmat_stg : M3 ℚ)
    (solve_procrustes : (Fin n → V3 ℚ) → (Fin n → V3 ℚ) → M3 ℚ)
    (sog : M3 ℚ → Bool) (magmoms : Fin n → V3 ℚ) (mag_symprec : ℚ)
    (stg_pairs : List (V3 ℚ × (Fin n → Fin n))) :
    List ((M3 ℤ × V3 ℚ) × (Fin n → Fin n)) → List SpinSymmetryOperation
  | [] => []
  | ((rot, tr), p) :: rest =>
    let rot_prim := (tmat_stg.inv) * (M3.toQ rot) * tmat_stg
    if rot_prim.IsInt then
      match firstCenteringHit n solve_procrustes sog magmoms mag_symprec p stg_pairs with
      | some (c, W) =>
        ⟨rot_prim, (tmat_stg.inv).mulVec (c + tr), W⟩ ::
          nontrivialCosetSearch n tmat_stg solve_procrustes sog magmoms mag_symprec stg_pairs rest
      | none =>
        nontrivialCosetSearch n tmat_stg solve_procrustes sog magmoms mag_symprec stg_pairs rest
    else
      nontrivialCosetSearch n tmat_stg solve_procrustes sog magmoms mag_symprec stg_pairs rest

/-- The `SpinSpaceGroup` dataclass of `group.py`. -/
structure SpinSpaceGroup where
  prim_lattice : M3 ℚ
  spin_only_group : M3 ℚ → Bool
  spin_translation_coset : List SpinSymmetryOperation
  prim_centerings : List (V3 ℚ)
  nontrivial_coset : List SpinSymmetryOperation
  transformation : M3 ℚ

/-- Embedding of `get_primitive_spin_symmetry(nonmagnetic_symmetry, magmoms, mag_symprec)`
from `group.py`.  The single `assert` of the function (line 201,
`np.isclose(np.abs(np.linalg.det(tmat_stg)), len(stg_centerings))`) is
embedded as the exact test `|det tmat_stg| = #stg_centerings`; a failing
assertion aborts the assembly, embedded as `none`. -/
def get_primitive_spin_symmetry (n : ℕ)
    (hnf : List (V3 ℚ) → M3 ℚ)
    (get_spin_only_group : (Fin n → V3 ℚ) → ℚ → (M3 ℚ → Bool))
    (solve_procrustes : (Fin n → V3 ℚ) → (Fin n → V3 ℚ) → M3 ℚ)
    (ns : NonmagneticSymmetry n) (magmoms : Fin n → V3 ℚ) (mag_symprec : ℚ) :
    Option SpinSpaceGroup :=
  let stg_pairs := stgCenteringFilter n magmoms mag_symprec
    (ns.prim_centerings.zip ns.prim_centering_permutations)
  let stg_centerings := stg_pairs.map Prod.fst
  let tmat_stg := hnf (stgVectors ns.transformation stg_centerings)
  if |tmat_stg.det| = (stg_centerings.length : ℚ) then
    let sog := get_spin_only_group magmoms mag_symprec
    let spin_translation_coset := spinTranslationSearch n tmat_stg
      solve_procrustes sog magmoms mag_symprec
      (ns.prim_centerings.zip ns.prim_centering_permutations) []
    let prim_lattice := ns.prim_lattice * tmat_stg
    let prim_centerings := stg_centerings.map (tmat_stg.inv).mulVec
    let transformation := (prim_lattice.inv) * ns.prim_lattice * (M3.toQ ns.transformation)
    let nontrivial_coset := nontrivialCosetSearch n tmat_stg
      solve_procrustes sog magmoms mag_symprec stg_pairs
      ((ns.prim_rotations.zip ns.prim_translations).zip ns.prim_permutations)
    some ⟨prim_lattice, sog, spin_translation_coset, prim_centerings,
      nontrivial_coset, transformation⟩
  else
    none

/-! ## `spinspg/pointgroup.py`: canonical point-group matching

`get_canonical_pointgroup` is embedded with its two external collaborators
as function arguments: `get_pointgroup` stands for `spglib.get_pointgroup`
(which returns a symbol and a basis-change matrix `P`; the middle component
of the Python triple is discarded at the call site) and `pg_dataset` stands
for the `spgrep.pointgroup.pg_dataset` catalogue mapping a symbol to its
list of representative rotation sets.  `ndarray2d_to_integer_tuple`
(from `spgrep.utils`) converts a float matrix to a hashable tuple of
nearest integers; it is embedded as `rintM3`. -/

/-- The inner `for i, ri in enumerate(std_rotations)` loop of
`get_canonical_pointgroup`: look up each standardized rotation in
`matched` (`matched.index(ri)`, first occurrence), writing the found index
into `mapping` (initialized to `-1` everywhere); `none` embeds the
`ValueError` / `success = False` path. -/
def buildMapping (matched : List (M3 ℤ)) :
    List (M3 ℤ) → ℕ → List ℤ → Option (List ℤ)
  | [], _, mapping => some mapping
  | ri :: rest, i, mapping =>
    match matched.findIdx? (fun m => m = ri) with
    | some j => buildMapping matched rest (i + 1) (mapping.set i (j : ℤ))
    | none => none

/-- The `for idx, std_rotations in enumerate(pg_dataset[pg_symbol])` loop:
return `(symbol, idx, mapping)` for the first catalogue entry that
matches; fall through to `none` (Python's implicit `None` return) when no
entry matches. -/
def canonicalMatchLoop (pg_symbol : String) (matched : List (M3 ℤ))
    (order : ℕ) : ℕ → List (List (M3 ℤ)) → Option (String × ℕ × List ℤ)
  | _, [] => none
  | idx, std :: rest =>
    match buildMapping matched std 0 (List.replicate order (-1)) with
    | some mapping => some (pg_symbol, idx, mapping)
    | none => canonicalMatchLoop pg_symbol matched order (idx + 1) rest

/-- Embedding of `get_canonical_pointgroup(prim_rotations)` from `pointgroup.py`.
`matched` (`[ndarray2d_to_integer_tuple(Pinv @ r @ P) for r in prim_rotations]`)
is recomputed identically on every catalogue iteration in the Python code;
it is hoisted here. -/
def get_canonical_pointgroup
    (get_pointgroup : List (M3 ℤ) → String × M3 ℚ)
    (pg_dataset : String → List (List (M3 ℤ)))
    (prim_rotations : List (M3 ℤ)) : Option (String × ℕ × List ℤ) :=
  let pg_symbol := (get_pointgroup prim_rotations).1
  let P := (get_pointgroup prim_rotations).2
  let Pinv := P.inv
  let matched := prim_rotations.map (fun r => rintM3 (Pinv * (M3.toQ r) * P))
  canonicalMatchLoop pg_symbol matched prim_rotations.length 0
    (pg_dataset pg_symbol)

/-! ## Auxiliary definitions for the claims -/

/-- Build a matrix from three column vectors. -/
def M3.ofCols {α : Type} (u v w : V3 α) : M3 α :=
  ⟨⟨u.x, v.x, w.x⟩, ⟨u.y, v.y, w.y⟩, ⟨u.z, v.z, w.z⟩⟩

/-- Integer combination of a list of rational vectors (the `ℤ`-span
witness format). -/
def zCombo : List ℤ → List (V3 ℚ) → V3 ℚ
  | _, [] => 0
  | [], _ => 0
  | a :: as, v :: vs => V3.smul (a : ℚ) v + zCombo as vs

/-- Membership of `v` in the `ℤ`-span of the columns `cols`. -/
def inZSpan (cols : List (V3 ℚ)) (v : V3 ℚ) : Prop :=
  ∃ zs : List ℤ, zs.length = cols.length ∧ v = zCombo zs cols

/-- Modelled from the spec: the contract of the external column-style
Hermite-Normal-Form utility (`hsnf.column_style_hermite_normal_form`, §6 of
the spec: "in — integer (or rounded rational) 3×m matrix; out — column-style
HNF and the unimodular transform; only the leading 3 columns are used
downstream").  The leading 3 columns `T` of a column-style HNF of `A` are a
lower-triangular basis of the `ℤ`-span of the columns of `A`: every column
of `A` is an integer combination of the columns of `T` and conversely. -/
def IsHNFLead3 (A : List (V3 ℚ)) (T : M3 ℚ) : Prop :=
  (T.r0.y = 0 ∧ T.r0.z = 0 ∧ T.r1.z = 0) ∧
  (∀ v ∈ A, inZSpan [T.c0, T.c1, T.c2] v) ∧
  (∀ c ∈ [T.c0, T.c1, T.c2], inZSpan A c)

/-- The §3 data-model invariants of a `NonmagneticSymmetry` record
("list of unique-by-rotation operations …, each paired with the
`Permutation` it induces"; "Invariant: `|det(transformation)|` equals the
number of centerings"): consistent list lengths, bijective site
permutations, and the determinant/centering-count equation. -/
def ValidNonmagneticSymmetry (n : ℕ) (ns : NonmagneticSymmetry n) : Prop :=
  |ns.transformation.det| = (ns.prim_centerings.length : ℤ) ∧
  ns.prim_centerings.length = ns.prim_centering_permutations.length ∧
  ns.prim_rotations.length = ns.prim_translations.length ∧
  ns.prim_translations.length = ns.prim_permutations.length ∧
  (∀ p ∈ ns.prim_permutations, Function.Bijective p) ∧
  (∀ p ∈ ns.prim_centering_permutations, Function.Bijective p)

/-- The per-triple contribution of the nontrivial-coset search, phrased as
the spec states Phase E (a spec-side reformulation, to be compared with the
loop `nontrivialCosetSearch` translated from the code): reject a rotation
that is not integral in the new primitive basis, otherwise take the *first*
retained centering (`List.find?`) whose composed permutation yields a
moment match after rotation-fit and canonicalization, and record the
translation as (matched centering + nonmagnetic translation) re-expressed
through `T⁻¹`. -/
def nontrivialStepSpec (n : ℕ) (tmat_stg : M3 ℚ)
    (solve_procrustes : (Fin n → V3 ℚ) → (Fin n → V3 ℚ) → M3 ℚ)
    (sog : M3 ℚ → Bool) (magmoms : Fin n → V3 ℚ) (mag_symprec : ℚ)
    (stg_pairs : List (V3 ℚ × (Fin n → Fin n)))
    (t : (M3 ℤ × V3 ℚ) × (Fin n → Fin n)) : Option SpinSymmetryOperation :=
  let rot_prim := (tmat_stg.inv) * (M3.toQ t.1.1) * tmat_stg
  if rot_prim.IsInt then
    match stg_pairs.find? (fun ccp =>
        let pm := fun i => magmoms (ccp.2 (t.2 i))
        maxNormDiffLt n
          (fun i => (fittedSpinRotation n solve_procrustes sog magmoms pm).mulVec (magmoms i))
          pm mag_symprec) with
    | some (c, cp) =>
      let pm := fun i => magmoms (cp (t.2 i))
      some ⟨rot_prim, (tmat_stg.inv).mulVec (c + t.1.2),
        fittedSpinRotation n solve_procrustes sog magmoms pm⟩
    | none => none
  else none

/-- A catalogue entry matches when every standardized rotation occurs among
the conjugated input rotations (the condition under which the inner lookup
loop of `get_canonical_pointgroup` completes without a `ValueError`). -/
def entryMatches (matched : List (M3 ℤ)) (std : List (M3 ℤ)) : Bool :=
  std.all (fun ri => matched.any (fun m => m = ri))

/-- Maximum of a list of rationals (`np.max`; meaningful for nonempty
lists, where `np.max` is defined). -/
def listMaxQ : List ℚ → ℚ
  | [] => 0
  | [x] => x
  | x :: y :: rest => max x (listMaxQ (y :: rest))

/-! ## Concrete instances used by counterexamples and witnesses -/

/-- The 90-degree rotation about the z axis: an element of order 4. -/
def rot4z : M3 ℤ := ⟨⟨0, -1, 0⟩, ⟨1, 0, 0⟩, ⟨0, 0, 1⟩⟩

/-- The identity element of the `traverse_spin_operations` element type. -/
def spinIdentity : SpinOp := (M3.one, M3.one)

/-- A generator of order 4 for the closure engine. -/
def spinGen4 : SpinOp := (rot4z, rot4z)

/-- A 1-dimensional-chain antiferromagnet described in its doubled magnetic
cell: two sites carrying opposite moments `(0,0,1)` and `(0,0,-1)`. -/
def afmMagmoms : Fin 2 → V3 ℚ := fun i => if i.val = 0 then ⟨0, 0, 1⟩ else ⟨0, 0, -1⟩

/-- The site permutation induced by the nontrivial centering of the doubled
cell: it swaps the two sites. -/
def swapPerm2 : Fin 2 → Fin 2 := fun i => if i.val = 0 then 1 else 0

/-- The transformation matrix of the doubled cell (the input cell is two
nonmagnetic primitive cells stacked along z). -/
def TafmZ : M3 ℤ := ⟨⟨1, 0, 0⟩, ⟨0, 1, 0⟩, ⟨0, 0, 2⟩⟩

def TafmQ : M3 ℚ := M3.toQ TafmZ

/-- The `NonmagneticSymmetry` record of the chain antiferromagnet: identity
rotation only, two centerings `(0,0,0)` and `(0,0,1)` (in nonmagnetic
primitive coordinates), the latter swapping the two sites. -/
def afmNS : NonmagneticSymmetry 2 where
  prim_lattice := M3.one
  prim_rotations := [M3.one]
  prim_translations := [0]
  prim_permutations := [id]
  prim_centerings := [⟨0, 0, 0⟩, ⟨0, 0, 1⟩]
  prim_centering_permutations := [id, swapPerm2]
  transformation := TafmZ

/-- A constant stand-in for the HNF oracle on the antiferromagnet input:
`TafmZ` is (the leading 3×3 block of) the column-style HNF of
`[TafmZ | retained centerings]` there. -/
def afmHNF : List (V3 ℚ) → M3 ℚ := fun _ => TafmQ

/-- Oracle stand-ins whose values are irrelevant to the aborting run. -/
def afmSogCtor : (Fin 2 → V3 ℚ) → ℚ → (M3 ℚ → Bool) := fun _ _ _ => false

def afmPro : (Fin 2 → V3 ℚ) → (Fin 2 → V3 ℚ) → M3 ℚ := fun _ _ => M3.one

/-- A trivial one-site, identity-only input on which the assembly
succeeds (used to witness the coset-membership claims). -/
def trivNS : NonmagneticSymmetry 1 where
  prim_lattice := M3.one
  prim_rotations := [M3.one]
  prim_translations := [0]
  prim_permutations := [id]
  prim_centerings := [0]
  prim_centering_permutations := [id]
  transformation := M3.one

def trivMagmoms : Fin 1 → V3 ℚ := fun _ => 0

def trivHNF : List (V3 ℚ) → M3 ℚ := fun _ => M3.one

def trivSogCtor : (Fin 1 → V3 ℚ) → ℚ → (M3 ℚ → Bool) := fun _ _ _ => false

def trivPro : (Fin 1 → V3 ℚ) → (Fin 1 → V3 ℚ) → M3 ℚ := fun _ _ => M3.one

/-- The successful run on the trivial input (the record it returns). -/
def trivSSG : SpinSpaceGroup :=
  (get_primitive_spin_symmetry 1 trivHNF trivSogCtor trivPro trivNS trivMagmoms 1).getD
    ⟨M3.one, fun _ => false, [], [], [], M3.one⟩

/-- Point-group identification oracle for the trivial point group "1":
symbol `"1"`, basis change `P = I`. -/
def trivGetPg : List (M3 ℤ) → String × M3 ℚ := fun _ => ("1", M3.one)

/-- Catalogue with the single representative entry of the trivial point
group (as in `pg_dataset["1"]`). -/
def trivPgData : String → List (List (M3 ℤ)) := fun s => if s = "1" then [[M3.one]] else []

/-- A catalogue whose only entry cannot match an identity-only input
(used to exercise the fall-through-to-`None` path). -/
def missPgData : String → List (List (M3 ℤ)) := fun _ => [[rot4z]]

/-- The Phase-B column list of the antiferromagnet input: the transformation
matrix columns followed by the single retained centering `(0,0,0)`. -/
def afmStgVecs : List (V3 ℚ) := stgVectors afmNS.transformation [⟨0, 0, 0⟩]

/-! ## Helper lemmas -/

namespace V3

variable {α : Type} [CommRing α]

@[simp] theorem add_def (u v : V3 α) :
    u + v = ⟨u.x + v.x, u.y + v.y, u.z + v.z⟩ := rfl

@[simp] theorem sub_def (u v : V3 α) :
    u - v = ⟨u.x - v.x, u.y - v.y, u.z - v.z⟩ := rfl

@[simp] theorem zero_def : (0 : V3 α) = ⟨0, 0, 0⟩ := rfl

theorem toQ_vec_injective : Function.Injective V3.toQ := by
  intro a b h
  cases a; cases b
  simp only [toQ, V3.mk.injEq] at h
  exact V3.ext (by exact_mod_cast h.1) (by exact_mod_cast h.2.1) (by exact_mod_cast h.2.2)

theorem toQ_sub (a b : V3 ℤ) : toQ (a - b) = toQ a - toQ b := by
  cases a; cases b
  simp [toQ]

end V3

namespace M3

variable {α : Type} [CommRing α]

@[simp] theorem mul_def (A B : M3 α) : A * B = A.mul B := rfl
@[simp] theorem one_def : (1 : M3 α) = M3.one := rfl

theorem mul_adj (A : M3 α) : A * A.adj = (M3.one).smul A.det := by
  cases A with
  | mk r0 r1 r2 =>
    cases r0; cases r1; cases r2
    apply M3.ext <;> apply V3.ext <;>
      simp [M3.mul, M3.adj, M3.one, M3.smul, V3.smul, V3.dot,
        M3.c0, M3.c1, M3.c2, M3.det] <;> ring

theorem adj_mul (A : M3 α) : A.adj * A = (M3.one).smul A.det := by
  cases A with
  | mk r0 r1 r2 =>
    cases r0; cases r1; cases r2
    apply M3.ext <;> apply V3.ext <;>
      simp [M3.mul, M3.adj, M3.one, M3.smul, V3.smul, V3.dot,
        M3.c0, M3.c1, M3.c2, M3.det] <;> ring

theorem mul_smul_right (A : M3 α) (s : α) (B : M3 α) :
    A * B.smul s = (A * B).smul s := by
  cases A with
  | mk a0 a1 a2 =>
    cases B with
    | mk b0 b1 b2 =>
      cases a0; cases a1; cases a2; cases b0; cases b1; cases b2
      apply M3.ext <;> apply V3.ext <;>
        simp [M3.mul, M3.smul, V3.smul, V3.dot, M3.c0, M3.c1, M3.c2] <;> ring

theorem smul_mul_left (A : M3 α) (s : α) (B : M3 α) :
    A.smul s * B = (A * B).smul s := by
  cases A with
  | mk a0 a1 a2 =>
    cases B with
    | mk b0 b1 b2 =>
      cases a0; cases a1; cases a2; cases b0; cases b1; cases b2
      apply M3.ext <;> apply V3.ext <;>
        simp [M3.mul, M3.smul, V3.smul, V3.dot, M3.c0, M3.c1, M3.c2] <;> ring

theorem smul_smul (A : M3 α) (s t : α) : (A.smul s).smul t = A.smul (t * s) := by
  cases A with
  | mk a0 a1 a2 =>
    cases a0; cases a1; cases a2
    apply M3.ext <;> apply V3.ext <;> simp [M3.smul, V3.smul] <;> ring

theorem smul_one' (A : M3 α) : A.smul 1 = A := by
  cases A with
  | mk a0 a1 a2 =>
    cases a0; cases a1; cases a2
    apply M3.ext <;> apply V3.ext <;> simp [M3.smul, V3.smul]

theorem mul_one' (A : M3 α) : A * M3.one = A := by
  cases A with
  | mk a0 a1 a2 =>
    cases a0; cases a1; cases a2
    apply M3.ext <;> apply V3.ext <;>
      simp [M3.mul, M3.one, V3.dot, M3.c0, M3.c1, M3.c2]

theorem one_mul' (A : M3 α) : M3.one * A = A := by
  cases A with
  | mk a0 a1 a2 =>
    cases a0; cases a1; cases a2
    apply M3.ext <;> apply V3.ext <;>
      simp [M3.mul, M3.one, V3.dot, M3.c0, M3.c1, M3.c2]

theorem mul_assoc' (A B C : M3 α) : A * B * C = A * (B * C) := by
  cases A with
  | mk a0 a1 a2 =>
    cases B with
    | mk b0 b1 b2 =>
      cases C with
      | mk c0' c1' c2' =>
        cases a0; cases a1; cases a2; cases b0; cases b1; cases b2
        cases c0'; cases c1'; cases c2'
        apply M3.ext <;> apply V3.ext <;>
          simp [M3.mul, V3.dot, M3.c0, M3.c1, M3.c2] <;> ring

theorem mul_inv_of_det_ne_zero (A : M3 ℚ) (h : A.det ≠ 0) :
    A * A.inv = M3.one := by
  rw [M3.inv, mul_smul_right, mul_adj, smul_smul]
  rw [inv_mul_cancel₀ h, smul_one']

theorem inv_mul_of_det_ne_zero (A : M3 ℚ) (h : A.det ≠ 0) :
    A.inv * A = M3.one := by
  rw [M3.inv, smul_mul_left, adj_mul, smul_smul]
  rw [inv_mul_cancel₀ h, smul_one']

theorem mulVec_mulVec (A B : M3 α) (v : V3 α) :
    (A * B).mulVec v = A.mulVec (B.mulVec v) := by
  cases A with
  | mk a0 a1 a2 =>
    cases B with
    | mk b0 b1 b2 =>
      cases v
      cases a0; cases a1; cases a2; cases b0; cases b1; cases b2
      apply V3.ext <;>
        simp [M3.mul, M3.mulVec, V3.dot, M3.c0, M3.c1, M3.c2] <;> ring

theorem one_mulVec (v : V3 α) : (M3.one).mulVec v = v := by
  cases v
  apply V3.ext <;> simp [M3.mulVec, M3.one, V3.dot]

theorem mulVec_sub (A : M3 α) (u v : V3 α) :
    A.mulVec (u - v) = A.mulVec u - A.mulVec v := by
  cases A with
  | mk a0 a1 a2 =>
    cases a0; cases a1; cases a2; cases u; cases v
    apply V3.ext <;> simp [M3.mulVec, V3.dot] <;> ring

theorem det_mul (A B : M3 α) : (A * B).det = A.det * B.det := by
  cases A with
  | mk a0 a1 a2 =>
    cases B with
    | mk b0 b1 b2 =>
      cases a0; cases a1; cases a2; cases b0; cases b1; cases b2
      simp [M3.mul, M3.det, V3.dot, M3.c0, M3.c1, M3.c2]
      ring

theorem det_toQ (A : M3 ℤ) : (M3.toQ A).det = (A.det : ℚ) := by
  cases A with
  | mk a0 a1 a2 =>
    cases a0; cases a1; cases a2
    simp only [M3.toQ, V3.toQ, M3.det]
    push_cast
    ring

theorem toQ_mul (A B : M3 ℤ) : M3.toQ (A * B) = M3.toQ A * M3.toQ B := by
  cases A with
  | mk a0 a1 a2 =>
    cases B with
    | mk b0 b1 b2 =>
      cases a0; cases a1; cases a2; cases b0; cases b1; cases b2
      apply M3.ext <;> apply V3.ext <;>
        simp only [M3.toQ, V3.toQ, M3.mul_def, M3.mul, V3.dot, M3.c0, M3.c1, M3.c2] <;>
        push_cast <;> ring

theorem toQ_mulVec (A : M3 ℤ) (v : V3 ℤ) :
    (M3.toQ A).mulVec (V3.toQ v) = V3.toQ (A.mulVec v) := by
  cases A with
  | mk a0 a1 a2 =>
    cases a0; cases a1; cases a2; cases v
    apply V3.ext <;> simp only [M3.toQ, V3.toQ, M3.mulVec, V3.dot] <;>
      push_cast <;> ring

theorem toQ_mat_injective : Function.Injective M3.toQ := by
  intro a b h
  cases a; cases b
  simp only [M3.toQ, M3.mk.injEq] at h
  exact M3.ext (V3.toQ_vec_injective h.1) (V3.toQ_vec_injective h.2.1) (V3.toQ_vec_injective h.2.2)

theorem ofCols_self (A : M3 α) : M3.ofCols A.c0 A.c1 A.c2 = A := by
  cases A with
  | mk a0 a1 a2 =>
    cases a0; cases a1; cases a2
    rfl

theorem mul_ofCols (A : M3 α) (u v w : V3 α) :
    A * M3.ofCols u v w = M3.ofCols (A.mulVec u) (A.mulVec v) (A.mulVec w) := by
  cases A with
  | mk a0 a1 a2 =>
    cases a0; cases a1; cases a2; cases u; cases v; cases w
    apply M3.ext <;> apply V3.ext <;>
      simp [M3.mul, M3.ofCols, M3.mulVec, V3.dot, M3.c0, M3.c1, M3.c2]

theorem mulVec_eq_combo (A : M3 α) (v : V3 α) :
    A.mulVec v = V3.smul v.x A.c0 + V3.smul v.y A.c1 + V3.smul v.z A.c2 := by
  cases A with
  | mk a0 a1 a2 =>
    cases a0; cases a1; cases a2; cases v
    apply V3.ext <;> simp [M3.mulVec, V3.dot, V3.smul, M3.c0, M3.c1, M3.c2] <;> ring

end M3

@[simp] theorem SpinOp.mul_eq_pair (g h : SpinOp) :
    g * h = ((g.1 * h.1 : M3 ℤ), (g.2 * h.2 : M3 ℤ)) := rfl

theorem listMaxQ_lt_iff (l : List ℚ) (t : ℚ) (hl : l ≠ []) :
    listMaxQ l < t ↔ ∀ x ∈ l, x < t := by
  induction l with
  | nil => simp at hl
  | cons x rest ih =>
    cases rest with
    | nil => simp [listMaxQ]
    | cons y ys =>
      rw [listMaxQ, max_lt_iff]
      constructor
      · rintro ⟨hx, hm⟩ z hz
        rcases List.mem_cons.mp hz with rfl | hz'
        · exact hx
        · exact (ih (by simp)).mp hm z hz'
      · intro h
        exact ⟨h x (by simp),
          (ih (by simp)).mpr (fun z hz => h z (List.mem_cons_of_mem _ hz))⟩

/-- For `n > 0` the Boolean `maxNormDiffLt` is exactly
"the maximum per-site squared norm is below `tol^2`, and `tol` is positive",
which is the squared reading of `np.max(np.linalg.norm(a-b, axis=1)) < tol`. -/
theorem maxNormDiffLt_iff (n : ℕ) (hn : 0 < n) (a b : Fin n → V3 ℚ) (tol : ℚ) :
    maxNormDiffLt n a b tol = true ↔
      (0 < tol ∧
        listMaxQ ((List.finRange n).map (fun i => (a i - b i).normSq)) < tol ^ 2) := by
  unfold maxNormDiffLt
  rw [Bool.and_eq_true, List.all_eq_true]
  have hne : (List.finRange n).map (fun i => (a i - b i).normSq) ≠ [] := by
    apply List.ne_nil_of_length_pos
    simpa using hn
  rw [listMaxQ_lt_iff _ _ hne]
  simp only [decide_eq_true_eq, List.mem_map, List.mem_finRange]
  constructor
  · rintro ⟨h0, h⟩
    refine ⟨h0, ?_⟩
    rintro x ⟨i, -, rfl⟩
    exact h i trivial
  · rintro ⟨h0, h⟩
    exact ⟨h0, fun i _ => h _ ⟨i, trivial, rfl⟩⟩

/-- Claim C1.  The spec says an operation for which some source site finds
no unclaimed species-matching target within tolerance is silently dropped,
and that every returned permutation is total.  On the code this fails: the
guard `np.all(perm != -1)` at `permutation.py:51` compares the Python list
`perm` against the int `-1`, which is always `True`, so the operation below
(a single site translated by half a lattice vector, matching nothing at
tolerance 1/10) is *not* dropped, and the returned permutation is the
non-total `[-1]`. -/
theorem claim_C1_unmatched_operation_is_returned :
    get_symmetry_permutations M3.one [⟨0, 0, 0⟩] [0]
      [(M3.one, ⟨mkRat 1 2, 0, 0⟩)] (mkRat 1 10) = [[-1]] := by decide

/-- Claim C6.  Generator closure: the generator set `{identity}` closes to
exactly `{identity}`, and a single generator of order 4 (here the pair of
90° z rotations: its fourth power is the identity and lower powers are
distinct) closes to exactly 4 distinct elements, the powers of the
generator. -/
theorem claim_C6_closure_identity_and_order4 :
    (traverse_spin_operations 10 [spinIdentity] = some [spinIdentity]) ∧
    (spinGen4 * spinGen4 * spinGen4 * spinGen4 = spinIdentity ∧
      spinGen4 ≠ spinIdentity ∧
      spinGen4 * spinGen4 ≠ spinIdentity ∧
      spinGen4 * spinGen4 * spinGen4 ≠ spinIdentity) ∧
    (∃ l : List SpinOp, traverse_spin_operations 30 [spinGen4] = some l ∧
      l.length = 4 ∧ l.Nodup ∧
      l.Perm [spinIdentity, spinGen4, spinGen4 * spinGen4,
        spinGen4 * spinGen4 * spinGen4]) := by
  refine ⟨by decide, by decide,
    [spinGen4, spinGen4 * spinGen4, spinIdentity, spinGen4 * spinGen4 * spinGen4],
    by decide, by decide, by decide, by decide⟩

theorem traverseLoop_isSome_of_closed {α : Type} [Mul α] [DecidableEq α]
    (G : Finset α) (hG : ∀ a ∈ G, ∀ b ∈ G, a * b ∈ G) :
    ∀ (fuel : ℕ) (founds queue : List α),
      founds.Nodup → (∀ x ∈ founds, x ∈ G) → (∀ x ∈ queue, x ∈ G) →
      (G.card - founds.length) * (G.card + 1) + queue.length ≤ fuel →
      (traverseLoop fuel founds queue).isSome := by
  intro fuel
  induction fuel with
  | zero =>
    intro founds queue hnd hfG hqG hm
    cases queue with
    | nil => simp [traverseLoop]
    | cons g rest => simp at hm
  | succ fuel ih =>
    intro founds queue hnd hfG hqG hm
    cases queue with
    | nil => simp [traverseLoop]
    | cons g rest =>
      rw [traverseLoop]
      by_cases hgf : g ∈ founds
      · simp only [hgf, if_true]
        apply ih founds rest hnd hfG
          (fun x hx => hqG x (List.mem_cons_of_mem _ hx))
        simp only [List.length_cons] at hm
        omega
      · simp only [hgf, if_false]
        have hgG : g ∈ G := hqG g (List.mem_cons_self _ _)
        have hnd' : (founds ++ [g]).Nodup := by
          simp [List.nodup_append, hnd, hgf]
        have hfG' : ∀ x ∈ founds ++ [g], x ∈ G := by
          intro x hx
          rcases List.mem_append.mp hx with h | h
          · exact hfG x h
          · simp only [List.mem_singleton] at h
            subst h; exact hgG
        have hlen : (founds ++ [g]).length ≤ G.card := by
          have hsub : (founds ++ [g]).toFinset ⊆ G :=
            fun x hx => hfG' x (List.mem_toFinset.mp hx)
          calc (founds ++ [g]).length
              = (founds ++ [g]).toFinset.card := (List.toFinset_card_of_nodup hnd').symm
            _ ≤ G.card := Finset.card_le_card hsub
        apply ih (founds ++ [g])
          ((((founds ++ [g]).map (fun h => g * h)).filter
            (fun gh => decide (gh ∉ founds ++ [g]))).reverse ++ rest)
          hnd' hfG'
        · intro x hx
          rcases List.mem_append.mp hx with h | h
          · have h' := List.mem_reverse.mp h
            have h'' := List.mem_of_mem_filter h'
            rcases List.mem_map.mp h'' with ⟨y, hy, rfl⟩
            exact hG g hgG y (hfG' y hy)
          · exact hqG x (List.mem_cons_of_mem _ h)
        · have hql : ((((founds ++ [g]).map (fun h => g * h)).filter
              (fun gh => decide (gh ∉ founds ++ [g]))).reverse ++ rest).length
              ≤ (founds.length + 1) + rest.length := by
            rw [List.length_append, List.length_reverse]
            have h1 := List.length_filter_le
              (fun gh => decide (gh ∉ founds ++ [g]))
              ((founds ++ [g]).map (fun h => g * h))
            rw [List.length_map, List.length_append] at h1
            simp only [List.length_singleton] at h1
            omega
          have hflen : founds.length + 1 ≤ G.card := by
            rw [List.length_append, List.length_singleton] at hlen
            exact hlen
          have hsplit : (G.card - founds.length) * (G.card + 1)
              = (G.card - (founds.length + 1)) * (G.card + 1) + (G.card + 1) := by
            have h1 : G.card - founds.length = (G.card - (founds.length + 1)) + 1 := by
              omega
            rw [h1]; ring
          simp only [List.length_cons] at hm
          rw [List.length_append, List.length_singleton]
          rw [hsplit] at hm
          omega

/-- Claim C7.  For every generator list whose elements generate a finite
group under the pairwise product of `traverse_spin_operations` (formalized:
some finite set closed under the product contains the generators), the
closure loop terminates — some finite fuel suffices for the queue to
empty.  The embedding's fuel parameter stands for the unbounded iteration
of the Python `while` loop, which enforces no iteration or size cap of its
own. -/
theorem claim_C7_closure_terminates (generators : List SpinOp) (G : Finset SpinOp)
    (hgen : ∀ g ∈ generators, g ∈ G)
    (hclosed : ∀ a ∈ G, ∀ b ∈ G, a * b ∈ G) :
    ∃ fuel : ℕ, (traverse_spin_operations fuel generators).isSome := by
  refine ⟨G.card * (G.card + 1) + generators.length, ?_⟩
  unfold traverse_spin_operations
  apply traverseLoop_isSome_of_closed G hclosed _ [] generators.reverse
    List.nodup_nil (by simp)
  · intro x hx
    exact hgen x (List.mem_reverse.mp hx)
  · simp

/-- Witness for Claim C7 at a concrete input: the singleton generator list
`[spinIdentity]` is contained in the closed finite set `{spinIdentity}`. -/
theorem claim_C7_witness :
    ((∀ g ∈ [spinIdentity], g ∈ ({spinIdentity} : Finset SpinOp)) ∧
      (∀ a ∈ ({spinIdentity} : Finset SpinOp),
        ∀ b ∈ ({spinIdentity} : Finset SpinOp),
          a * b ∈ ({spinIdentity} : Finset SpinOp))) ∧
    (∃ fuel : ℕ, (traverse_spin_operations fuel [spinIdentity]).isSome) :=
  ⟨⟨by decide, by decide⟩,
    claim_C7_closure_terminates [spinIdentity] {spinIdentity} (by decide) (by decide)⟩

/-- Claim C5.  Phase A of `get_primitive_spin_symmetry` retains a
nonmagnetic centering if and only if the maximum over all sites of the
(squared) norm of `magmoms[perm(i)] - magmoms[i]` is strictly below
`mag_symprec` (squared) — with the tolerance positive, which together is the
exact reading of `np.max(np.linalg.norm(...)) < mag_symprec` — and all other
centerings are excluded. -/
theorem claim_C5_phaseA_retains_iff (n : ℕ) (hn : 0 < n)
    (magmoms : Fin n → V3 ℚ) (tol : ℚ)
    (pairs : List (V3 ℚ × (Fin n → Fin n))) (c : V3 ℚ) (p : Fin n → Fin n) :
    (c, p) ∈ stgCenteringFilter n magmoms tol pairs ↔
      ((c, p) ∈ pairs ∧ 0 < tol ∧
        listMaxQ ((List.finRange n).map
          (fun i => (magmoms (p i) - magmoms i).normSq)) < tol ^ 2) := by
  induction pairs with
  | nil => simp [stgCenteringFilter]
  | cons hd rest ih =>
    obtain ⟨c', p'⟩ := hd
    rw [stgCenteringFilter]
    by_cases hcond : maxNormDiffLt n (fun i => magmoms (p' i)) magmoms tol = true
    · simp only [hcond, if_true]
      rw [List.mem_cons, ih, List.mem_cons]
      constructor
      · rintro (heq | ⟨hmem, h0, hmax⟩)
        · obtain ⟨rfl, rfl⟩ := Prod.mk.injEq .. ▸ heq
          rcases (maxNormDiffLt_iff n hn _ _ tol).mp hcond with ⟨h0, hmax⟩
          exact ⟨Or.inl rfl, h0, hmax⟩
        · exact ⟨Or.inr hmem, h0, hmax⟩
      · rintro ⟨heq | hmem, h0, hmax⟩
        · exact Or.inl heq
        · exact Or.inr ⟨hmem, h0, hmax⟩
    · rw [Bool.not_eq_true] at hcond
      simp only [hcond, Bool.false_eq_true, if_false]
      rw [ih, List.mem_cons]
      constructor
      · rintro ⟨hmem, h0, hmax⟩
        exact ⟨Or.inr hmem, h0, hmax⟩
      · rintro ⟨heq | hmem, h0, hmax⟩
        · exfalso
          obtain ⟨rfl, rfl⟩ := Prod.mk.injEq .. ▸ heq
          have htrue := (maxNormDiffLt_iff n hn
            (fun i => magmoms (p i)) magmoms tol).mpr ⟨h0, hmax⟩
          rw [htrue] at hcond
          simp at hcond
        · exact ⟨hmem, h0, hmax⟩

/-- Witness for Claim C5 at a concrete input (one site, zero moment, unit
tolerance, the identity centering pair). -/
theorem claim_C5_witness :
    0 < 1 ∧
    (((0 : V3 ℚ), (id : Fin 1 → Fin 1)) ∈
        stgCenteringFilter 1 trivMagmoms 1 [((0 : V3 ℚ), (id : Fin 1 → Fin 1))] ↔
      (((0 : V3 ℚ), (id : Fin 1 → Fin 1)) ∈
          [((0 : V3 ℚ), (id : Fin 1 → Fin 1))] ∧ (0 : ℚ) < 1 ∧
        listMaxQ ((List.finRange 1).map
          (fun i => (trivMagmoms (id i) - trivMagmoms i).normSq)) < 1 ^ 2)) :=
  ⟨Nat.one_pos, claim_C5_phaseA_retains_iff 1 Nat.one_pos trivMagmoms 1 _ 0 id⟩

theorem V3.sub_add_cancel' {α : Type} [CommRing α] (a b : V3 α) :
    a - b + b = a := by
  cases a; cases b
  apply V3.ext <;> simp <;> ring

/-- Claim C8.  For an integer vector `v` and the integer invertible matrix
`T` of the Phase-B reduction, the fundamental-domain reduction used in the
spin-translation search (apply `T⁻¹`, subtract the nearest-integer vector,
map back through `T`) yields an integer vector congruent to `v` modulo the
lattice generated by the columns of `T`: re-expanding reproduces `v` up to
an integer combination `T @ z` of lattice vectors. -/
theorem claim_C8_fd_reduction (T : M3 ℚ) (v : V3 ℚ)
    (hdet : T.det ≠ 0) (hT : T.IsInt) (hv : v.IsInt) :
    (T.mulVec (reduceToFD T v)).IsInt ∧
    ∃ z : V3 ℤ, v = T.mulVec (reduceToFD T v) + T.mulVec (V3.toQ z) := by
  have hTv : T.mulVec ((T.inv).mulVec v) = v := by
    rw [← M3.mulVec_mulVec, M3.mul_inv_of_det_ne_zero T hdet, M3.one_mulVec]
  have hred : T.mulVec (reduceToFD T v)
      = v - T.mulVec (rintV3Q ((T.inv).mulVec v)) := by
    unfold reduceToFD
    rw [M3.mulVec_sub, hTv]
  constructor
  · obtain ⟨N, rfl⟩ := hT
    obtain ⟨m, rfl⟩ := hv
    rw [hred]
    rw [show rintV3Q (((M3.toQ N).inv).mulVec (V3.toQ m))
        = V3.toQ (rintV3 (((M3.toQ N).inv).mulVec (V3.toQ m))) from rfl]
    rw [M3.toQ_mulVec, ← V3.toQ_sub]
    exact ⟨_, rfl⟩
  · refine ⟨rintV3 ((T.inv).mulVec v), ?_⟩
    rw [hred]
    rw [show T.mulVec (V3.toQ (rintV3 ((T.inv).mulVec v)))
        = T.mulVec (rintV3Q ((T.inv).mulVec v)) from rfl]
    rw [V3.sub_add_cancel']

/-- Witness for Claim C8 at a concrete input: `T = diag(1,1,2)`,
`v = (0,0,3)`. -/
theorem claim_C8_witness :
    (TafmQ.det ≠ 0 ∧ TafmQ.IsInt ∧ (⟨0, 0, 3⟩ : V3 ℚ).IsInt) ∧
    ((TafmQ.mulVec (reduceToFD TafmQ ⟨0, 0, 3⟩)).IsInt ∧
      ∃ z : V3 ℤ, (⟨0, 0, 3⟩ : V3 ℚ) =
        TafmQ.mulVec (reduceToFD TafmQ ⟨0, 0, 3⟩) + TafmQ.mulVec (V3.toQ z)) :=
  ⟨⟨by decide, by decide, by decide⟩,
    claim_C8_fd_reduction TafmQ ⟨0, 0, 3⟩ (by decide) (by decide) (by decide)⟩

/-- Claim C2, amended.  The equality `|det(T)| = number of retained
centerings` is *not* an invariant of all valid inputs (see the
counterexample below); what holds is the assertion semantics: the assembly
aborts if and only if the equality fails, so a violation is the single
fatal precondition, and under the equality the assertion branch is
unreachable and assembly returns a result. -/
theorem claim_C2_assert_aborts_iff (n : ℕ)
    (hnf : List (V3 ℚ) → M3 ℚ)
    (gsog : (Fin n → V3 ℚ) → ℚ → (M3 ℚ → Bool))
    (pro : (Fin n → V3 ℚ) → (Fin n → V3 ℚ) → M3 ℚ)
    (ns : NonmagneticSymmetry n) (magmoms : Fin n → V3 ℚ) (tol : ℚ) :
    (get_primitive_spin_symmetry n hnf gsog pro ns magmoms tol).isSome =
      decide (|(hnf (stgVectors ns.transformation
          ((stgCenteringFilter n magmoms tol
            (ns.prim_centerings.zip ns.prim_centering_permutations)).map Prod.fst))).det|
        = (((stgCenteringFilter n magmoms tol
            (ns.prim_centerings.zip ns.prim_centering_permutations)).map
              Prod.fst).length : ℚ)) := by
  unfold get_primitive_spin_symmetry
  by_cases h : |(hnf (stgVectors ns.transformation
      ((stgCenteringFilter n magmoms tol
        (ns.prim_centerings.zip ns.prim_centering_permutations)).map Prod.fst))).det|
      = (((stgCenteringFilter n magmoms tol
          (ns.prim_centerings.zip ns.prim_centering_permutations)).map
            Prod.fst).length : ℚ)
  · rw [if_pos h]
    simp [h]
  · rw [if_neg h]
    rw [List.length_map] at h
    simp [h]

theorem afmStgVecs_eq :
    afmStgVecs = [⟨1, 0, 0⟩, ⟨0, 1, 0⟩, ⟨0, 0, 2⟩, ⟨0, 0, 0⟩] := by decide

/-- Anything in the `ℤ`-span of the antiferromagnet Phase-B columns has
integer x and y components and an even integer z component. -/
theorem afm_span_elim (v : V3 ℚ) (h : inZSpan afmStgVecs v) :
    ∃ a b c : ℤ, v = ⟨(a : ℚ), (b : ℚ), 2 * (c : ℚ)⟩ := by
  rw [afmStgVecs_eq] at h
  obtain ⟨zs, hlen, rfl⟩ := h
  match zs, hlen with
  | [a, b, c, d], _ =>
    refine ⟨a, b, c, ?_⟩
    apply V3.ext <;> simp [zCombo, V3.smul] <;> ring

theorem zCombo3_eq_mulVec (T : M3 ℚ) (u1 u2 u3 : ℤ) :
    zCombo [u1, u2, u3] [T.c0, T.c1, T.c2]
      = T.mulVec ⟨(u1 : ℚ), (u2 : ℚ), (u3 : ℚ)⟩ := by
  cases T with
  | mk r0 r1 r2 =>
    cases r0; cases r1; cases r2
    apply V3.ext <;>
      simp [zCombo, V3.smul, M3.mulVec, V3.dot, M3.c0, M3.c1, M3.c2] <;> ring

theorem toQ_ofCols (u v w : V3 ℤ) :
    M3.toQ (M3.ofCols u v w) = M3.ofCols (V3.toQ u) (V3.toQ v) (V3.toQ w) := by
  cases u; cases v; cases w
  rfl

theorem TafmQ_mulVec (a b c : ℚ) :
    TafmQ.mulVec ⟨a, b, c⟩ = ⟨a, b, 2 * c⟩ := by
  apply V3.ext <;> simp [TafmQ, TafmZ, M3.toQ, V3.toQ, M3.mulVec, V3.dot] <;> ring

/-- On the antiferromagnet input, *any* matrix satisfying the modelled HNF
contract for the Phase-B column list has determinant of absolute value 2
(the index of the spin-space-group lattice in the nonmagnetic primitive
lattice), never 1. -/
theorem afm_hnf_det (T' : M3 ℚ) (h : IsHNFLead3 afmStgVecs T') :
    |T'.det| = 2 := by
  obtain ⟨-, hA, hT⟩ := h
  obtain ⟨a0, b0, c0, hc0⟩ := afm_span_elim _ (hT T'.c0 (by simp))
  obtain ⟨a1, b1, c1, hc1⟩ := afm_span_elim _ (hT T'.c1 (by simp))
  obtain ⟨a2, b2, c2, hc2⟩ := afm_span_elim _ (hT T'.c2 (by simp))
  -- T' = diag(1,1,2) * M with M integral
  have hTD : T' = TafmQ * M3.toQ (M3.ofCols ⟨a0, b0, c0⟩ ⟨a1, b1, c1⟩ ⟨a2, b2, c2⟩) := by
    rw [toQ_ofCols, M3.mul_ofCols]
    rw [show V3.toQ ⟨a0, b0, c0⟩ = (⟨(a0 : ℚ), (b0 : ℚ), (c0 : ℚ)⟩ : V3 ℚ) from rfl]
    rw [show V3.toQ ⟨a1, b1, c1⟩ = (⟨(a1 : ℚ), (b1 : ℚ), (c1 : ℚ)⟩ : V3 ℚ) from rfl]
    rw [show V3.toQ ⟨a2, b2, c2⟩ = (⟨(a2 : ℚ), (b2 : ℚ), (c2 : ℚ)⟩ : V3 ℚ) from rfl]
    rw [TafmQ_mulVec, TafmQ_mulVec, TafmQ_mulVec]
    rw [← hc0, ← hc1, ← hc2, M3.ofCols_self]
  -- diag(1,1,2) = T' * N with N integral
  have he1 := hA ⟨1, 0, 0⟩ (by rw [afmStgVecs_eq]; simp)
  have he2 := hA ⟨0, 1, 0⟩ (by rw [afmStgVecs_eq]; simp)
  have he3 := hA ⟨0, 0, 2⟩ (by rw [afmStgVecs_eq]; simp)
  obtain ⟨zs1, hl1, hz1⟩ := he1
  obtain ⟨zs2, hl2, hz2⟩ := he2
  obtain ⟨zs3, hl3, hz3⟩ := he3
  match zs1, hl1, zs2, hl2, zs3, hl3 with
  | [u1, u2, u3], _, [v1, v2, v3], _, [w1, w2, w3], _ =>
    rw [zCombo3_eq_mulVec] at hz1 hz2 hz3
    have hDT : TafmQ = T' * M3.toQ (M3.ofCols ⟨u1, u2, u3⟩ ⟨v1, v2, v3⟩ ⟨w1, w2, w3⟩) := by
      rw [toQ_ofCols, M3.mul_ofCols]
      rw [show V3.toQ ⟨u1, u2, u3⟩ = (⟨(u1 : ℚ), (u2 : ℚ), (u3 : ℚ)⟩ : V3 ℚ) from rfl]
      rw [show V3.toQ ⟨v1, v2, v3⟩ = (⟨(v1 : ℚ), (v2 : ℚ), (v3 : ℚ)⟩ : V3 ℚ) from rfl]
      rw [show V3.toQ ⟨w1, w2, w3⟩ = (⟨(w1 : ℚ), (w2 : ℚ), (w3 : ℚ)⟩ : V3 ℚ) from rfl]
      rw [← hz1, ← hz2, ← hz3]
      decide
    have d1 : T'.det = 2 * ((M3.ofCols ⟨a0, b0, c0⟩ ⟨a1, b1, c1⟩ ⟨a2, b2, c2⟩).det : ℚ) := by
      rw [show T'.det = (TafmQ * M3.toQ (M3.ofCols ⟨a0, b0, c0⟩ ⟨a1, b1, c1⟩ ⟨a2, b2, c2⟩)).det
          from by rw [← hTD]]
      rw [M3.det_mul, M3.det_toQ]
      rw [show TafmQ.det = 2 from by decide]
    have d2 : (2 : ℚ) = T'.det * ((M3.ofCols ⟨u1, u2, u3⟩ ⟨v1, v2, v3⟩ ⟨w1, w2, w3⟩).det : ℚ) := by
      rw [show (2 : ℚ) = TafmQ.det from by decide]
      rw [show TafmQ.det = (T' * M3.toQ (M3.ofCols ⟨u1, u2, u3⟩ ⟨v1, v2, v3⟩ ⟨w1, w2, w3⟩)).det
          from by rw [← hDT]]
      rw [M3.det_mul, M3.det_toQ]
    set m := (M3.ofCols ⟨a0, b0, c0⟩ ⟨a1, b1, c1⟩ ⟨a2, b2, c2⟩).det with hm
    set nn := (M3.ofCols ⟨u1, u2, u3⟩ ⟨v1, v2, v3⟩ ⟨w1, w2, w3⟩).det with hn
    have hmn : m * nn = 1 := by
      have hq : ((m * nn : ℤ) : ℚ) = 1 := by
        push_cast
        rw [d1] at d2
        have h2 : (2 : ℚ) * ((m : ℚ) * (nn : ℚ)) = 2 * 1 := by
          linear_combination -d2
        exact mul_left_cancel₀ two_ne_zero h2
      exact_mod_cast hq
    have hunit : m = 1 ∨ m = -1 := Int.isUnit_iff.mp (isUnit_of_mul_eq_one m nn hmn)
    rw [d1]
    rcases hunit with h1 | h1 <;> rw [h1] <;> norm_num

/-- Claim C2, counterexample.  A valid 1-dimensional-chain antiferromagnet
input (input cell = two nonmagnetic primitive cells, moments up/down, the
nontrivial centering swapping the sites): Phase A retains exactly one
centering (the zero vector), but every matrix satisfying the HNF contract
on the Phase-B columns — in particular `diag(1,1,2)`, which is the
column-style HNF leading block there — has `|det| = 2 ≠ 1`, so the claimed
equality fails on a valid input and the assembly aborts through the
assertion. -/
theorem claim_C2_counterexample :
    ValidNonmagneticSymmetry 2 afmNS ∧
    (stgCenteringFilter 2 afmMagmoms 1
        (afmNS.prim_centerings.zip afmNS.prim_centering_permutations)).map Prod.fst
      = [⟨0, 0, 0⟩] ∧
    IsHNFLead3 afmStgVecs TafmQ ∧
    (∀ T' : M3 ℚ, IsHNFLead3 afmStgVecs T' → |T'.det| = 2) ∧
    |TafmQ.det| ≠ (((stgCenteringFilter 2 afmMagmoms 1
        (afmNS.prim_centerings.zip afmNS.prim_centering_permutations)).map
          Prod.fst).length : ℚ) ∧
    get_primitive_spin_symmetry 2 afmHNF afmSogCtor afmPro afmNS afmMagmoms 1 = none := by
  refine ⟨?_, by decide, ?_, afm_hnf_det, by decide, rfl⟩
  · unfold ValidNonmagneticSymmetry
    refine ⟨by decide, by decide, by decide, by decide, ?_, ?_⟩
    · intro p hp
      simp only [afmNS, List.mem_singleton] at hp
      subst hp
      exact Function.bijective_id
    · intro p hp
      simp only [afmNS, List.mem_cons, List.mem_singleton] at hp
      rcases hp with rfl | rfl | h
      · exact Function.bijective_id
      · decide
      · simp at h
  · refine ⟨by decide, ?_, ?_⟩
    · intro v hv
      rw [afmStgVecs_eq] at hv
      rcases List.mem_cons.mp hv with rfl | hv
      · exact ⟨[1, 0, 0], by decide, by decide⟩
      rcases List.mem_cons.mp hv with rfl | hv
      · exact ⟨[0, 1, 0], by decide, by decide⟩
      rcases List.mem_cons.mp hv with rfl | hv
      · exact ⟨[0, 0, 1], by decide, by decide⟩
      rcases List.mem_cons.mp hv with rfl | hv
      · exact ⟨[0, 0, 0], by decide, by decide⟩
      · simp at hv
    · intro c hc
      rw [afmStgVecs_eq]
      rcases List.mem_cons.mp hc with rfl | hc
      · exact ⟨[1, 0, 0, 0], by decide, by decide⟩
      rcases List.mem_cons.mp hc with rfl | hc
      · exact ⟨[0, 1, 0, 0], by decide, by decide⟩
      rcases List.mem_cons.mp hc with rfl | hc
      · exact ⟨[0, 0, 1, 0], by decide, by decide⟩
      · simp at hc

/-- The canonicalized spin rotation is the identity or fails the
spin-only-group membership test. -/
theorem fittedSpinRotation_id_or_not_member (n : ℕ)
    (pro : (Fin n → V3 ℚ) → (Fin n → V3 ℚ) → M3 ℚ)
    (sog : M3 ℚ → Bool) (magmoms pm : Fin n → V3 ℚ) :
    fittedSpinRotation n pro sog magmoms pm = M3.one ∨
    sog (fittedSpinRotation n pro sog magmoms pm) = false := by
  unfold fittedSpinRotation
  by_cases h : sog (pro magmoms pm) = true
  · left
    simp [h]
  · right
    rw [Bool.not_eq_true] at h
    simp [h]

/-- Every operation produced by the spin-translation search stores a
canonicalized spin rotation together with a moment match for the
permutation it was built from. -/
theorem mem_spinTranslationSearch (n : ℕ) (T : M3 ℚ)
    (pro : (Fin n → V3 ℚ) → (Fin n → V3 ℚ) → M3 ℚ)
    (sog : M3 ℚ → Bool) (magmoms : Fin n → V3 ℚ) (tol : ℚ) :
    ∀ (pairs : List (V3 ℚ × (Fin n → Fin n))) (found : List (V3 ℤ))
      (op : SpinSymmetryOperation),
      op ∈ spinTranslationSearch n T pro sog magmoms tol pairs found →
      ∃ p : Fin n → Fin n,
        op.spin_rotation = fittedSpinRotation n pro sog magmoms (fun i => magmoms (p i)) ∧
        maxNormDiffLt n (fun i => op.spin_rotation.mulVec (magmoms i))
          (fun i => magmoms (p i)) tol = true := by
  intro pairs
  induction pairs with
  | nil =>
    intro found op hop
    simp [spinTranslationSearch] at hop
  | cons hd rest ih =>
    obtain ⟨c, p⟩ := hd
    intro found op hop
    rw [spinTranslationSearch] at hop
    by_cases hkey : reducedKey T c ∈ found
    · rw [if_pos hkey] at hop
      exact ih found op hop
    · rw [if_neg hkey] at hop
      by_cases hacc : maxNormDiffLt n
          (fun i => (fittedSpinRotation n pro sog magmoms
            (fun i => magmoms (p i))).mulVec (magmoms i))
          (fun i => magmoms (p i)) tol = true
      · rw [if_pos hacc] at hop
        rcases List.mem_cons.mp hop with rfl | hmem
        · exact ⟨p, rfl, hacc⟩
        · exact ih _ op hmem
      · rw [if_neg hacc] at hop
        exact ih _ op hop

/-- A successful inner centering scan returns a centering from the
retained list together with its canonicalized spin rotation and a moment
match for the composed permutation. -/
theorem firstCenteringHit_some (n : ℕ)
    (pro : (Fin n → V3 ℚ) → (Fin n → V3 ℚ) → M3 ℚ)
    (sog : M3 ℚ → Bool) (magmoms : Fin n → V3 ℚ) (tol : ℚ)
    (p : Fin n → Fin n) :
    ∀ (stg_pairs : List (V3 ℚ × (Fin n → Fin n))) (c : V3 ℚ) (W : M3 ℚ),
      firstCenteringHit n pro sog magmoms tol p stg_pairs = some (c, W) →
      ∃ cp : Fin n → Fin n, (c, cp) ∈ stg_pairs ∧
        W = fittedSpinRotation n pro sog magmoms (fun i => magmoms (cp (p i))) ∧
        maxNormDiffLt n (fun i => W.mulVec (magmoms i))
          (fun i => magmoms (cp (p i))) tol = true := by
  intro stg_pairs
  induction stg_pairs with
  | nil =>
    intro c W h
    simp [firstCenteringHit] at h
  | cons hd rest ih =>
    obtain ⟨c', cp'⟩ := hd
    intro c W h
    rw [firstCenteringHit] at h
    by_cases hacc : maxNormDiffLt n
        (fun i => (fittedSpinRotation n pro sog magmoms
          (fun i => magmoms (cp' (p i)))).mulVec (magmoms i))
        (fun i => magmoms (cp' (p i))) tol = true
    · rw [if_pos hacc] at h
      obtain ⟨rfl, rfl⟩ := Prod.mk.injEq .. ▸ (Option.some.injEq .. ▸ h)
      exact ⟨cp', List.mem_cons_self _ _, rfl, hacc⟩
    · rw [if_neg hacc] at h
      obtain ⟨cp, hmem, hW, hok⟩ := ih c W h
      exact ⟨cp, List.mem_cons_of_mem _ hmem, hW, hok⟩

/-- Every operation produced by the nontrivial-coset search stores a
canonicalized spin rotation together with a moment match for the composed
permutation it was built from. -/
theorem mem_nontrivialCosetSearch_spin (n : ℕ) (T : M3 ℚ)
    (pro : (Fin n → V3 ℚ) → (Fin n → V3 ℚ) → M3 ℚ)
    (sog : M3 ℚ → Bool) (magmoms : Fin n → V3 ℚ) (tol : ℚ)
    (stg_pairs : List (V3 ℚ × (Fin n → Fin n))) :
    ∀ (triples : List ((M3 ℤ × V3 ℚ) × (Fin n → Fin n)))
      (op : SpinSymmetryOperation),
      op ∈ nontrivialCosetSearch n T pro sog magmoms tol stg_pairs triples →
      ∃ q : Fin n → Fin n,
        op.spin_rotation = fittedSpinRotation n pro sog magmoms (fun i => magmoms (q i)) ∧
        maxNormDiffLt n (fun i => op.spin_rotation.mulVec (magmoms i))
          (fun i => magmoms (q i)) tol = true := by
  intro triples
  induction triples with
  | nil =>
    intro op hop
    simp [nontrivialCosetSearch] at hop
  | cons hd rest ih =>
    obtain ⟨⟨rot, tr⟩, p⟩ := hd
    intro op hop
    rw [nontrivialCosetSearch] at hop
    by_cases hint : ((T.inv) * (M3.toQ rot) * T).IsInt
    · rw [if_pos hint] at hop
      rcases hhit : firstCenteringHit n pro sog magmoms tol p stg_pairs with
        _ | ⟨c, W⟩
      · rw [hhit] at hop
        exact ih op hop
      · rw [hhit] at hop
        rcases List.mem_cons.mp hop with rfl | hmem
        · obtain ⟨cp, -, hW, hok⟩ :=
            firstCenteringHit_some n pro sog magmoms tol p stg_pairs c W hhit
          exact ⟨fun i => cp (p i), hW, hok⟩
        · exact ih op hmem
    · rw [if_neg hint] at hop
      exact ih op hop

/-- Claim C4.  Every `SpinSymmetryOperation` stored in the spin-translation
coset or the nontrivial coset by `get_primitive_spin_symmetry` stores the
canonicalized spin rotation of some site permutation — so the Procrustes
fit was replaced by the exact identity whenever it belonged to the
spin-only group, and every stored spin rotation is either the identity or
not a member of the spin-only group — and the operation was stored only if
the stored spin rotation maps the moments onto the permuted moments with
maximum per-site (squared) norm difference strictly below the (squared)
magnetic tolerance. -/
theorem claim_C4_stored_spin_rotations (n : ℕ)
    (hnf : List (V3 ℚ) → M3 ℚ)
    (gsog : (Fin n → V3 ℚ) → ℚ → (M3 ℚ → Bool))
    (pro : (Fin n → V3 ℚ) → (Fin n → V3 ℚ) → M3 ℚ)
    (ns : NonmagneticSymmetry n) (magmoms : Fin n → V3 ℚ) (tol : ℚ)
    (ssg : SpinSpaceGroup)
    (hrun : get_primitive_spin_symmetry n hnf gsog pro ns magmoms tol = some ssg)
    (op : SpinSymmetryOperation)
    (hop : op ∈ ssg.spin_translation_coset ++ ssg.nontrivial_coset) :
    (op.spin_rotation = M3.one ∨ gsog magmoms tol op.spin_rotation = false) ∧
    ∃ q : Fin n → Fin n,
      op.spin_rotation =
        fittedSpinRotation n pro (gsog magmoms tol) magmoms (fun i => magmoms (q i)) ∧
      maxNormDiffLt n (fun i => op.spin_rotation.mulVec (magmoms i))
        (fun i => magmoms (q i)) tol = true := by
  unfold get_primitive_spin_symmetry at hrun
  by_cases hdet : |(hnf (stgVectors ns.transformation
      ((stgCenteringFilter n magmoms tol
        (ns.prim_centerings.zip ns.prim_centering_permutations)).map Prod.fst))).det|
      = (((stgCenteringFilter n magmoms tol
          (ns.prim_centerings.zip ns.prim_centering_permutations)).map
            Prod.fst).length : ℚ)
  · rw [if_pos hdet] at hrun
    obtain rfl := (Option.some.injEq .. ▸ hrun).symm
    have hq : ∃ q : Fin n → Fin n,
        op.spin_rotation =
          fittedSpinRotation n pro (gsog magmoms tol) magmoms (fun i => magmoms (q i)) ∧
        maxNormDiffLt n (fun i => op.spin_rotation.mulVec (magmoms i))
          (fun i => magmoms (q i)) tol = true := by
      rcases List.mem_append.mp hop with hmem | hmem
      · exact mem_spinTranslationSearch n _ pro (gsog magmoms tol) magmoms tol
          _ [] op hmem
      · exact mem_nontrivialCosetSearch_spin n _ pro (gsog magmoms tol) magmoms tol
          _ _ op hmem
    refine ⟨?_, hq⟩
    obtain ⟨q, hW, -⟩ := hq
    rw [hW]
    exact fittedSpinRotation_id_or_not_member n pro (gsog magmoms tol) magmoms _
  · rw [if_neg hdet] at hrun
    cases hrun

/-- Witness for Claim C4 at a concrete input: the trivial one-site input,
whose spin-translation coset contains the identity operation. -/
theorem claim_C4_witness :
    (get_primitive_spin_symmetry 1 trivHNF trivSogCtor trivPro trivNS trivMagmoms 1
        = some trivSSG ∧
      (⟨M3.one, 0, M3.one⟩ : SpinSymmetryOperation) ∈
        trivSSG.spin_translation_coset ++ trivSSG.nontrivial_coset) ∧
    (((⟨M3.one, 0, M3.one⟩ : SpinSymmetryOperation).spin_rotation = M3.one ∨
      trivSogCtor trivMagmoms 1
        (⟨M3.one, 0, M3.one⟩ : SpinSymmetryOperation).spin_rotation = false) ∧
    ∃ q : Fin 1 → Fin 1,
      (⟨M3.one, 0, M3.one⟩ : SpinSymmetryOperation).spin_rotation =
        fittedSpinRotation 1 trivPro (trivSogCtor trivMagmoms 1) trivMagmoms
          (fun i => trivMagmoms (q i)) ∧
      maxNormDiffLt 1
        (fun i => (⟨M3.one, 0, M3.one⟩ : SpinSymmetryOperation).spin_rotation.mulVec
          (trivMagmoms i))
        (fun i => trivMagmoms (q i)) 1 = true) :=
  ⟨⟨rfl, by decide⟩,
    claim_C4_stored_spin_rotations 1 trivHNF trivSogCtor trivPro trivNS trivMagmoms 1
      trivSSG rfl ⟨M3.one, 0, M3.one⟩ (by decide)⟩

/-- The inner centering scan is the first-match (`List.find?`) over the
retained centerings, paired with the fitted spin rotation of the hit. -/
theorem firstCenteringHit_eq_find (n : ℕ)
    (pro : (Fin n → V3 ℚ) → (Fin n → V3 ℚ) → M3 ℚ)
    (sog : M3 ℚ → Bool) (magmoms : Fin n → V3 ℚ) (tol : ℚ)
    (p : Fin n → Fin n) :
    ∀ stg_pairs : List (V3 ℚ × (Fin n → Fin n)),
      firstCenteringHit n pro sog magmoms tol p stg_pairs =
        (stg_pairs.find? (fun ccp =>
          maxNormDiffLt n
            (fun i => (fittedSpinRotation n pro sog magmoms
              (fun i => magmoms (ccp.2 (p i)))).mulVec (magmoms i))
            (fun i => magmoms (ccp.2 (p i))) tol)).map
          (fun ccp =>
            (ccp.1, fittedSpinRotation n pro sog magmoms
              (fun i => magmoms (ccp.2 (p i))))) := by
  intro stg_pairs
  induction stg_pairs with
  | nil => rfl
  | cons hd rest ih =>
    obtain ⟨c, cp⟩ := hd
    rw [firstCenteringHit, List.find?]
    by_cases hacc : maxNormDiffLt n
        (fun i => (fittedSpinRotation n pro sog magmoms
          (fun i => magmoms (cp (p i)))).mulVec (magmoms i))
        (fun i => magmoms (cp (p i))) tol = true
    · rw [if_pos hacc, hacc]
      rfl
    · rw [if_neg hacc]
      rw [Bool.not_eq_true] at hacc
      rw [hacc]
      exact ih

theorem M3.conj_cancel (T A : M3 ℚ) (hdet : T.det ≠ 0) :
    T * (T.inv * A * T) * T.inv = A := by
  rw [← M3.mul_assoc' T (T.inv * A) T]
  rw [← M3.mul_assoc' T T.inv A]
  rw [M3.mul_inv_of_det_ne_zero T hdet, M3.one_mul']
  rw [M3.mul_assoc' A T T.inv]
  rw [M3.mul_inv_of_det_ne_zero T hdet, M3.mul_one']

theorem M3.conj_injective (T : M3 ℚ) (hdet : T.det ≠ 0) (A B : M3 ℚ)
    (h : T.inv * A * T = T.inv * B * T) : A = B := by
  rw [← M3.conj_cancel T A hdet, h, M3.conj_cancel T B hdet]

/-- The rotation part of every operation produced by the nontrivial-coset
search is the conjugate of the rotation of the triple it came from. -/
theorem mem_nontrivialCosetSearch_rotation (n : ℕ) (T : M3 ℚ)
    (pro : (Fin n → V3 ℚ) → (Fin n → V3 ℚ) → M3 ℚ)
    (sog : M3 ℚ → Bool) (magmoms : Fin n → V3 ℚ) (tol : ℚ)
    (stg_pairs : List (V3 ℚ × (Fin n → Fin n))) :
    ∀ (triples : List ((M3 ℤ × V3 ℚ) × (Fin n → Fin n)))
      (op : SpinSymmetryOperation),
      op ∈ nontrivialCosetSearch n T pro sog magmoms tol stg_pairs triples →
      ∃ t ∈ triples, op.rotation = (T.inv) * (M3.toQ t.1.1) * T := by
  intro triples
  induction triples with
  | nil =>
    intro op hop
    simp [nontrivialCosetSearch] at hop
  | cons hd rest ih =>
    obtain ⟨⟨rot, tr⟩, p⟩ := hd
    intro op hop
    rw [nontrivialCosetSearch] at hop
    by_cases hint : ((T.inv) * (M3.toQ rot) * T).IsInt
    · rw [if_pos hint] at hop
      rcases hhit : firstCenteringHit n pro sog magmoms tol p stg_pairs with
        _ | ⟨c, W⟩
      · rw [hhit] at hop
        obtain ⟨t, ht, hrot⟩ := ih op hop
        exact ⟨t, List.mem_cons_of_mem _ ht, hrot⟩
      · rw [hhit] at hop
        rcases List.mem_cons.mp hop with rfl | hmem
        · exact ⟨((rot, tr), p), List.mem_cons_self _ _, rfl⟩
        · obtain ⟨t, ht, hrot⟩ := ih op hmem
          exact ⟨t, List.mem_cons_of_mem _ ht, hrot⟩
    · rw [if_neg hint] at hop
      obtain ⟨t, ht, hrot⟩ := ih op hop
      exact ⟨t, List.mem_cons_of_mem _ ht, hrot⟩

/-- The code's nontrivial-coset loop computes exactly the spec-side
per-triple contributions. -/
theorem nontrivialCosetSearch_eq_filterMap (n : ℕ) (T : M3 ℚ)
    (pro : (Fin n → V3 ℚ) → (Fin n → V3 ℚ) → M3 ℚ)
    (sog : M3 ℚ → Bool) (magmoms : Fin n → V3 ℚ) (tol : ℚ)
    (stg_pairs : List (V3 ℚ × (Fin n → Fin n))) :
    ∀ triples : List ((M3 ℤ × V3 ℚ) × (Fin n → Fin n)),
      nontrivialCosetSearch n T pro sog magmoms tol stg_pairs triples
        = triples.filterMap (nontrivialStepSpec n T pro sog magmoms tol stg_pairs) := by
  intro triples
  induction triples with
  | nil => rfl
  | cons hd rest ih =>
    obtain ⟨⟨rot, tr⟩, p⟩ := hd
    rw [nontrivialCosetSearch, List.filterMap_cons]
    by_cases hint : ((T.inv) * (M3.toQ rot) * T).IsInt
    · rw [if_pos hint]
      rw [firstCenteringHit_eq_find]
      rcases hfind : List.find? (fun ccp =>
          maxNormDiffLt n
            (fun i => (fittedSpinRotation n pro sog magmoms
              (fun i => magmoms (ccp.2 (p i)))).mulVec (magmoms i))
            (fun i => magmoms (ccp.2 (p i))) tol) stg_pairs with
        _ | ⟨c, cp⟩
      · rw [hfind]
        rw [show nontrivialStepSpec n T pro sog magmoms tol stg_pairs ((rot, tr), p)
            = none from by
          unfold nontrivialStepSpec
          rw [if_pos hint, hfind]]
        exact ih
      · rw [hfind]
        rw [show nontrivialStepSpec n T pro sog magmoms tol stg_pairs ((rot, tr), p)
            = some ⟨(T.inv) * (M3.toQ rot) * T, (T.inv).mulVec (c + tr),
                fittedSpinRotation n pro sog magmoms (fun i => magmoms (cp (p i)))⟩ from by
          unfold nontrivialStepSpec
          rw [if_pos hint, hfind]]
        rw [ih]
        rfl
    · rw [if_neg hint]
      rw [show nontrivialStepSpec n T pro sog magmoms tol stg_pairs ((rot, tr), p)
          = none from by
        unfold nontrivialStepSpec
        rw [if_neg hint]]
      exact ih

/-- With an invertible `T` and pairwise-distinct input rotations, the
rotation parts of the nontrivial coset are pairwise distinct. -/
theorem nontrivialCosetSearch_rotations_pairwise (n : ℕ) (T : M3 ℚ)
    (pro : (Fin n → V3 ℚ) → (Fin n → V3 ℚ) → M3 ℚ)
    (sog : M3 ℚ → Bool) (magmoms : Fin n → V3 ℚ) (tol : ℚ)
    (stg_pairs : List (V3 ℚ × (Fin n → Fin n)))
    (hdet : T.det ≠ 0) :
    ∀ triples : List ((M3 ℤ × V3 ℚ) × (Fin n → Fin n)),
      (triples.map (fun t => t.1.1)).Pairwise (fun a b => a ≠ b) →
      ((nontrivialCosetSearch n T pro sog magmoms tol stg_pairs triples).map
        (fun op => op.rotation)).Pairwise (fun a b => a ≠ b) := by
  intro triples
  induction triples with
  | nil =>
    intro _
    simp [nontrivialCosetSearch]
  | cons hd rest ih =>
    obtain ⟨⟨rot, tr⟩, p⟩ := hd
    intro hdist
    rw [List.map_cons, List.pairwise_cons] at hdist
    rw [nontrivialCosetSearch]
    by_cases hint : ((T.inv) * (M3.toQ rot) * T).IsInt
    · rw [if_pos hint]
      rcases hhit : firstCenteringHit n pro sog magmoms tol p stg_pairs with
        _ | ⟨c, W⟩
      · exact ih hdist.2
      · refine List.pairwise_cons.mpr ⟨?_, ih hdist.2⟩
        intro b hb
        rcases List.mem_map.mp hb with ⟨op, hop, rfl⟩
        obtain ⟨t, ht, hrot⟩ :=
          mem_nontrivialCosetSearch_rotation n T pro sog magmoms tol stg_pairs
            rest op hop
        rw [hrot]
        intro heq
        have h1 := M3.conj_injective T hdet _ _ heq
        have h2 := M3.toQ_mat_injective h1
        exact hdist.1 t.1.1
          (List.mem_map.mpr ⟨t, ht, rfl⟩) h2
    · rw [if_neg hint]
      exact ih hdist.2

/-- Claim C3.  In the nontrivial-coset search: a triple whose rotation
conjugated into the new primitive basis is not integral contributes
nothing; the loop contributes at most one operation per triple, given by
the *first* retained centering (in enumeration order, `List.find?`) whose
composed permutation yields a moment match after rotation-fit and
canonicalization, with the recorded translation `T⁻¹ @ (centering +
nonmagnetic translation)`; and with invertible `T` and pairwise-distinct
input rotations, the rotation parts of the coset are pairwise distinct. -/
theorem claim_C3_nontrivial_coset_policy (n : ℕ) (T : M3 ℚ)
    (pro : (Fin n → V3 ℚ) → (Fin n → V3 ℚ) → M3 ℚ)
    (sog : M3 ℚ → Bool) (magmoms : Fin n → V3 ℚ) (tol : ℚ)
    (stg_pairs : List (V3 ℚ × (Fin n → Fin n)))
    (triples : List ((M3 ℤ × V3 ℚ) × (Fin n → Fin n)))
    (hdet : T.det ≠ 0)
    (hdist : (triples.map (fun t => t.1.1)).Pairwise (fun a b => a ≠ b)) :
    (∀ t : (M3 ℤ × V3 ℚ) × (Fin n → Fin n),
      ¬ ((T.inv) * (M3.toQ t.1.1) * T).IsInt →
        nontrivialStepSpec n T pro sog magmoms tol stg_pairs t = none) ∧
    nontrivialCosetSearch n T pro sog magmoms tol stg_pairs triples
      = triples.filterMap (nontrivialStepSpec n T pro sog magmoms tol stg_pairs) ∧
    (∀ (t : (M3 ℤ × V3 ℚ) × (Fin n → Fin n)) (op : SpinSymmetryOperation),
      nontrivialStepSpec n T pro sog magmoms tol stg_pairs t = some op →
      op.rotation = (T.inv) * (M3.toQ t.1.1) * T ∧
      ∃ c cp,
        List.find? (fun ccp =>
          maxNormDiffLt n
            (fun i => (fittedSpinRotation n pro sog magmoms
              (fun i => magmoms (ccp.2 (t.2 i)))).mulVec (magmoms i))
            (fun i => magmoms (ccp.2 (t.2 i))) tol) stg_pairs = some (c, cp) ∧
        op.translation = (T.inv).mulVec (c + t.1.2) ∧
        op.spin_rotation =
          fittedSpinRotation n pro sog magmoms (fun i => magmoms (cp (t.2 i)))) ∧
    ((nontrivialCosetSearch n T pro sog magmoms tol stg_pairs triples).map
      (fun op => op.rotation)).Pairwise (fun a b => a ≠ b) := by
  refine ⟨?_, nontrivialCosetSearch_eq_filterMap n T pro sog magmoms tol stg_pairs triples,
    ?_, nontrivialCosetSearch_rotations_pairwise n T pro sog magmoms tol stg_pairs
      hdet triples hdist⟩
  · intro t hint
    unfold nontrivialStepSpec
    rw [if_neg hint]
  · intro t op hstep
    unfold nontrivialStepSpec at hstep
    by_cases hint : ((T.inv) * (M3.toQ t.1.1) * T).IsInt
    · rw [if_pos hint] at hstep
      rcases hfind : List.find? (fun ccp =>
          maxNormDiffLt n
            (fun i => (fittedSpinRotation n pro sog magmoms
              (fun i => magmoms (ccp.2 (t.2 i)))).mulVec (magmoms i))
            (fun i => magmoms (ccp.2 (t.2 i))) tol) stg_pairs with
        _ | ⟨c, cp⟩
      · rw [hfind] at hstep
        cases hstep
      · rw [hfind] at hstep
        obtain rfl := (Option.some.injEq .. ▸ hstep).symm
        exact ⟨rfl, c, cp, hfind, rfl, rfl⟩
    · rw [if_neg hint] at hstep
      cases hstep

/-- Witness for Claim C3 at a concrete input (one site, identity
transformation and rotation, the zero retained centering). -/
theorem claim_C3_witness :
    ((M3.one : M3 ℚ).det ≠ 0 ∧
      (([(((M3.one : M3 ℤ), (0 : V3 ℚ)), (id : Fin 1 → Fin 1))].map
        (fun t => t.1.1)).Pairwise (fun a b => a ≠ b))) ∧
    (nontrivialCosetSearch 1 M3.one trivPro (fun _ => false) trivMagmoms 1
        [((0 : V3 ℚ), (id : Fin 1 → Fin 1))]
        [(((M3.one : M3 ℤ), (0 : V3 ℚ)), (id : Fin 1 → Fin 1))]
      = [(((M3.one : M3 ℤ), (0 : V3 ℚ)), (id : Fin 1 → Fin 1))].filterMap
          (nontrivialStepSpec 1 M3.one trivPro (fun _ => false) trivMagmoms 1
            [((0 : V3 ℚ), (id : Fin 1 → Fin 1))]) ∧
      ((nontrivialCosetSearch 1 M3.one trivPro (fun _ => false) trivMagmoms 1
        [((0 : V3 ℚ), (id : Fin 1 → Fin 1))]
        [(((M3.one : M3 ℤ), (0 : V3 ℚ)), (id : Fin 1 → Fin 1))]).map
          (fun op => op.rotation)).Pairwise (fun a b => a ≠ b)) :=
  ⟨⟨by decide, by simp⟩,
    (claim_C3_nontrivial_coset_policy 1 M3.one trivPro (fun _ => false) trivMagmoms 1
      [((0 : V3 ℚ), (id : Fin 1 → Fin 1))]
      [(((M3.one : M3 ℤ), (0 : V3 ℚ)), (id : Fin 1 → Fin 1))]
      (by decide) (by simp)).2.1,
    (claim_C3_nontrivial_coset_policy 1 M3.one trivPro (fun _ => false) trivMagmoms 1
      [((0 : V3 ℚ), (id : Fin 1 → Fin 1))]
      [(((M3.one : M3 ℤ), (0 : V3 ℚ)), (id : Fin 1 → Fin 1))]
      (by decide) (by simp)).2.2.2⟩

theorem buildMapping_length (matched : List (M3 ℤ)) :
    ∀ (std : List (M3 ℤ)) (i : ℕ) (mapping m' : List ℤ),
      buildMapping matched std i mapping = some m' → m'.length = mapping.length := by
  intro std
  induction std with
  | nil =>
    intro i mapping m' h
    obtain rfl := (Option.some.injEq .. ▸ h).symm
    rfl
  | cons r0 rest ih =>
    intro i mapping m' h
    rw [buildMapping] at h
    rcases hf : matched.findIdx? (fun m => m = r0) with _ | j0
    · rw [hf] at h
      cases h
    · rw [hf] at h
      have := ih (i + 1) (mapping.set i (j0 : ℤ)) m' h
      rwa [List.length_set] at this

theorem buildMapping_preserves (matched : List (M3 ℤ)) :
    ∀ (std : List (M3 ℤ)) (i : ℕ) (mapping m' : List ℤ),
      buildMapping matched std i mapping = some m' →
      ∀ k, k < i → m'[k]? = mapping[k]? := by
  intro std
  induction std with
  | nil =>
    intro i mapping m' h k _
    obtain rfl := (Option.some.injEq .. ▸ h).symm
    rfl
  | cons r0 rest ih =>
    intro i mapping m' h k hk
    rw [buildMapping] at h
    rcases hf : matched.findIdx? (fun m => m = r0) with _ | j0
    · rw [hf] at h
      cases h
    · rw [hf] at h
      have h1 := ih (i + 1) (mapping.set i (j0 : ℤ)) m' h k (by omega)
      rw [h1, List.getElem?_set_ne (by omega)]

theorem buildMapping_spec (matched : List (M3 ℤ)) :
    ∀ (std : List (M3 ℤ)) (i : ℕ) (mapping m' : List ℤ),
      buildMapping matched std i mapping = some m' →
      ∀ (k : ℕ) (ri : M3 ℤ), std[k]? = some ri → i + k < mapping.length →
        ∃ j : ℕ, m'[i + k]? = some (j : ℤ) ∧
          matched.findIdx? (fun m => m = ri) = some j := by
  intro std
  induction std with
  | nil =>
    intro i mapping m' h k ri hk
    simp at hk
  | cons r0 rest ih =>
    intro i mapping m' h k ri hk hbound
    rw [buildMapping] at h
    rcases hf : matched.findIdx? (fun m => m = r0) with _ | j0
    · rw [hf] at h
      cases h
    · rw [hf] at h
      cases k with
      | zero =>
        obtain rfl : r0 = ri := by simpa using hk
        refine ⟨j0, ?_, hf⟩
        simp only [Nat.add_zero]
        have h1 := buildMapping_preserves matched rest (i + 1)
          (mapping.set i (j0 : ℤ)) m' h i (by omega)
        rw [h1]
        have hi : i < mapping.length := by omega
        simpa using @List.getElem?_set_self ℤ mapping i ((j0 : ℕ) : ℤ) hi
      | succ k' =>
        have hk' : rest[k']? = some ri := by simpa using hk
        have hb' : (i + 1) + k' < (mapping.set i (j0 : ℤ)).length := by
          rw [List.length_set]; omega
        obtain ⟨j, hj, hfind⟩ := ih (i + 1) (mapping.set i (j0 : ℤ)) m' h k' ri hk' hb'
        refine ⟨j, ?_, hfind⟩
        rwa [show (i + 1) + k' = i + (k' + 1) from by omega] at hj

theorem canonicalMatchLoop_some (sym : String) (matched : List (M3 ℤ)) (order : ℕ) :
    ∀ (cat : List (List (M3 ℤ))) (idx0 : ℕ) (s : String) (idx : ℕ) (mapping : List ℤ),
      canonicalMatchLoop sym matched order idx0 cat = some (s, idx, mapping) →
      s = sym ∧ idx0 ≤ idx ∧
      ∃ std, cat[idx - idx0]? = some std ∧
        buildMapping matched std 0 (List.replicate order (-1)) = some mapping := by
  intro cat
  induction cat with
  | nil =>
    intro idx0 s idx mapping h
    simp [canonicalMatchLoop] at h
  | cons std rest ih =>
    intro idx0 s idx mapping h
    rw [canonicalMatchLoop] at h
    rcases hb : buildMapping matched std 0 (List.replicate order (-1)) with _ | m'
    · rw [hb] at h
      obtain ⟨hs, hidx, std', hcat, hbuild⟩ := ih (idx0 + 1) s idx mapping h
      refine ⟨hs, by omega, std', ?_, hbuild⟩
      rw [show idx - idx0 = (idx - (idx0 + 1)) + 1 from by omega]
      simpa using hcat
    · rw [hb] at h
      obtain ⟨rfl, rfl, rfl⟩ := Prod.mk.injEq .. ▸ (Option.some.injEq .. ▸ h).symm
      exact ⟨rfl, le_refl _, std, by simp, hb⟩

/-- Claim C9.  When `get_canonical_pointgroup` succeeds it returns the
oracle's symbol, a catalogue index and a mapping of the input's length such
that for every catalogue position `k`, the rounded conjugate
`P⁻¹ @ prim_rotations[mapping[k]] @ P` equals catalogue rotation `k`; and
on the trivial point group "1" (identity-only input) it returns catalogue
index 0 and the identity mapping `[0]`. -/
theorem claim_C9_canonical_matching :
    (∀ (gp : List (M3 ℤ) → String × M3 ℚ)
       (pgd : String → List (List (M3 ℤ)))
       (prims : List (M3 ℤ)) (sym : String) (idx : ℕ) (mapping : List ℤ),
      get_canonical_pointgroup gp pgd prims = some (sym, idx, mapping) →
      sym = (gp prims).1 ∧ mapping.length = prims.length ∧
      ∃ std, (pgd sym)[idx]? = some std ∧
        ∀ (k : ℕ) (ri : M3 ℤ), std[k]? = some ri → k < prims.length →
          ∃ j : ℕ, mapping[k]? = some (j : ℤ) ∧
            (prims.map (fun r =>
              rintM3 (((gp prims).2.inv) * (M3.toQ r) * (gp prims).2)))[j]?
              = some ri) ∧
    get_canonical_pointgroup trivGetPg trivPgData [M3.one] = some ("1", 0, [0]) := by
  constructor
  · intro gp pgd prims sym idx mapping h
    simp only [get_canonical_pointgroup] at h
    obtain ⟨hs, -, std, hcat, hbuild⟩ :=
      canonicalMatchLoop_some (gp prims).1
        (prims.map (fun r => rintM3 (((gp prims).2.inv) * (M3.toQ r) * (gp prims).2)))
        prims.length (pgd (gp prims).1) 0 sym idx mapping h
    subst hs
    have hlen : mapping.length = prims.length := by
      have := buildMapping_length _ _ _ _ _ hbuild
      rwa [List.length_replicate] at this
    refine ⟨rfl, hlen, std, by simpa using hcat, ?_⟩
    intro k ri hk hkb
    have hbound : 0 + k < (List.replicate prims.length (-1 : ℤ)).length := by
      rw [List.length_replicate]; omega
    obtain ⟨j, hj, hfind⟩ := buildMapping_spec _ _ _ _ _ hbuild k ri hk hbound
    rw [Nat.zero_add] at hj
    obtain ⟨hlt, hp, -⟩ := List.findIdx?_eq_some_iff_getElem.mp hfind
    refine ⟨j, hj, ?_⟩
    rw [List.getElem?_eq_getElem hlt]
    simp only [decide_eq_true_eq] at hp
    rw [hp]
  · decide

/-- Witness exercising the success characterization of Claim C9 on the
trivial point group. -/
theorem claim_C9_witness :
    (get_canonical_pointgroup trivGetPg trivPgData [M3.one] = some ("1", 0, [0])) ∧
    ("1" = (trivGetPg [M3.one]).1 ∧ ([(0 : ℤ)]).length = [(M3.one : M3 ℤ)].length ∧
      ∃ std, (trivPgData ((trivGetPg [M3.one]).1))[0]? = some std ∧
        ∀ (k : ℕ) (ri : M3 ℤ), std[k]? = some ri → k < [(M3.one : M3 ℤ)].length →
          ∃ j : ℕ, ([(0 : ℤ)])[k]? = some (j : ℤ) ∧
            ([(M3.one : M3 ℤ)].map (fun r =>
              rintM3 (((trivGetPg [M3.one]).2.inv) * (M3.toQ r) * (trivGetPg [M3.one]).2)))[j]?
              = some ri) :=
  ⟨by decide,
    claim_C9_canonical_matching.1 trivGetPg trivPgData [M3.one] "1" 0 [0] (by decide)⟩

theorem buildMapping_eq_none_iff (matched : List (M3 ℤ)) :
    ∀ (std : List (M3 ℤ)) (i : ℕ) (mapping : List ℤ),
      buildMapping matched std i mapping = none ↔
        entryMatches matched std = false := by
  intro std
  induction std with
  | nil =>
    intro i mapping
    simp [buildMapping, entryMatches]
  | cons r0 rest ih =>
    intro i mapping
    rw [buildMapping]
    rcases hf : matched.findIdx? (fun m => m = r0) with _ | j0
    · simp only [entryMatches, List.all_cons, Bool.and_eq_false_iff]
      constructor
      · intro _
        left
        have := @List.findIdx?_isSome (M3 ℤ) matched (fun m => decide (m = r0))
        rw [hf] at this
        simp only [Option.isSome_none] at this
        rw [← this]
      · intro _
        trivial
    · rw [ih (i + 1) (mapping.set i (j0 : ℤ))]
      simp only [entryMatches, List.all_cons, Bool.and_eq_false_iff]
      constructor
      · intro hrest
        right
        exact hrest
      · intro hor
        rcases hor with hany | hrest
        · exfalso
          have := @List.findIdx?_isSome (M3 ℤ) matched (fun m => decide (m = r0))
          rw [hf, hany] at this
          simp at this
        · exact hrest

theorem canonicalMatchLoop_eq_none_iff (sym : String) (matched : List (M3 ℤ))
    (order : ℕ) :
    ∀ (cat : List (List (M3 ℤ))) (idx0 : ℕ),
      canonicalMatchLoop sym matched order idx0 cat = none ↔
        ∀ std ∈ cat, buildMapping matched std 0 (List.replicate order (-1)) = none := by
  intro cat
  induction cat with
  | nil =>
    intro idx0
    simp [canonicalMatchLoop]
  | cons std rest ih =>
    intro idx0
    rw [canonicalMatchLoop]
    rcases hb : buildMapping matched std 0 (List.replicate order (-1)) with _ | m'
    · simp only [List.mem_cons]
      rw [ih (idx0 + 1)]
      constructor
      · intro hrest std' hmem
        rcases hmem with rfl | hmem
        · exact hb
        · exact hrest std' hmem
      · intro hall std' hmem
        exact hall std' (Or.inr hmem)
    · constructor
      · intro h
        cases h
      · intro hall
        exfalso
        have := hall std (List.mem_cons_self _ _)
        rw [hb] at this
        cases this

/-- Claim C10.  `get_canonical_pointgroup` returns `None` precisely when no
catalogue entry for the identified symbol matches the conjugated input
rotations (the Python loop falls through without raising); its result is
therefore an `Option`: a `(symbol, index, mapping)` triple on success and
`None` on a classification miss. -/
theorem claim_C10_none_iff_no_entry_matches
    (gp : List (M3 ℤ) → String × M3 ℚ)
    (pgd : String → List (List (M3 ℤ)))
    (prims : List (M3 ℤ)) :
    get_canonical_pointgroup gp pgd prims = none ↔
      ∀ std ∈ pgd (gp prims).1,
        entryMatches (prims.map (fun r =>
          rintM3 (((gp prims).2.inv) * (M3.toQ r) * (gp prims).2))) std = false := by
  simp only [get_canonical_pointgroup]
  rw [canonicalMatchLoop_eq_none_iff]
  constructor
  · intro h std hmem
    have := h std hmem
    rw [buildMapping_eq_none_iff] at this
    exact this
  · intro h std hmem
    rw [buildMapping_eq_none_iff]
    exact h std hmem

/-- Witness for Claim C10 at a concrete input: an identity-only input
against a catalogue whose single entry is a 90° rotation. -/
theorem claim_C10_witness :
    (∀ std ∈ missPgData (trivGetPg [M3.one]).1,
      entryMatches ([(M3.one : M3 ℤ)].map (fun r =>
        rintM3 (((trivGetPg [M3.one]).2.inv) * (M3.toQ r) * (trivGetPg [M3.one]).2)))
        std = false) ∧
    get_canonical_pointgroup trivGetPg missPgData [M3.one] = none :=
  ⟨by decide,
    (claim_C10_none_iff_no_entry_matches trivGetPg missPgData [M3.one]).mpr (by decide)⟩
